import Mathlib

/-!
Coda maze solver (`coda.js`): backtracking search with memoisation.

A shallow embedding of `coda.js`. The solver:

* `Point`, `hash`, `addPoint`, `removePoint`, `containsPoint`, `getPoint`:
  the coordinate objects and the two JavaScript objects used as maps
  (`pathSoFar`, `memo`), which are keyed by the string `hash(point)`;
* `outOfBounds`, `isSafe`: the board tests, reading `Maze.HEIGHT`, `Maze.WIDTH`
  and `Maze.data`;
* `addPosition`, `removePosition`: push and pop on `Maze.sol` and `Maze.stack`;
* `solveMazeUtil`: the recursive search, with the recursion depth made explicit
  as a fuel argument; `solveMaze`: the wrapper that starts it at `(0,0)` with a
  fresh `pathSoFar` and a fresh `memo`.

The mutable globals are threaded through as an explicit `State`.

The client of the server is embedded as well: `isValid` and `getMaze`, run against
the sequence of answers of the server, and `initArray`, `initMazeProps` and
`getValidBoardMoves`, which build the grid.
-/

namespace Coda

/-! ## Data model -/

/-- A coordinate object `{x, y}` as built by `Point(x, y)`; `x` is the row. -/
structure Point where
  x : Int
  y : Int
deriving DecidableEq, Repr

/-- The read-only part of the global `Maze` during a search: `Maze.HEIGHT`,
`Maze.WIDTH` and the grid `Maze.data` (rows of cells, `1` meaning valid). -/
structure Board where
  HEIGHT : Nat
  WIDTH : Nat
  data : List (List Nat)
deriving DecidableEq, Repr

/-- A JavaScript object used as a map from string keys to values. -/
abbrev JsMap (V : Type) := List (String × V)

/-- The mutable state a search works on: the globals `Maze.sol` and
`Maze.stack`, and the two objects `pathSoFar` and `memo` that `solveMaze`
passes to `solveMazeUtil`. -/
structure State where
  sol : List Point
  stack : List Point
  pathSoFar : JsMap Point
  memo : JsMap Bool
deriving DecidableEq, Repr

/-! ## Map operations -/

/-- The key of a point: `point.x.toString() + point.y.toString()`. -/
def hash (point : Point) : String :=
  toString point.x ++ toString point.y

/-- The entries of `map` left by `delete map[id]`. -/
def deleteKey {V : Type} (map : JsMap V) (id : String) : JsMap V :=
  map.filter (fun e => e.1 != id)

/-- Whether `map.hasOwnProperty(id)`. -/
def hasOwnProperty {V : Type} (map : JsMap V) (id : String) : Bool :=
  map.any (fun e => e.1 == id)

/-- The function `removePoint(map, point)`: `delete map[hash(point)]`. -/
def removePoint {V : Type} (map : JsMap V) (point : Point) : JsMap V :=
  deleteKey map (hash point)

/-- The function `addPoint(map, point, value)`: `map[hash(point)] = value`. -/
def addPoint {V : Type} (map : JsMap V) (point : Point) (value : V) : JsMap V :=
  (hash point, value) :: deleteKey map (hash point)

/-- The function `containsPoint(map, point)`: `map.hasOwnProperty(hash(point))`. -/
def containsPoint {V : Type} (map : JsMap V) (point : Point) : Bool :=
  hasOwnProperty map (hash point)

/-- The function `getPoint(map, point)`: `map[hash(point)]`, `none` standing for
`undefined`. -/
def getPoint {V : Type} (map : JsMap V) (point : Point) : Option V :=
  (map.find? (fun e => e.1 == hash point)).map Prod.snd

/-! ## Board tests -/

/-- The function `outOfBounds(x, y)`. -/
def outOfBounds (b : Board) (x y : Int) : Bool :=
  decide (x < 0) || decide (x ≥ (b.HEIGHT : Int)) || decide (y < 0) || decide (y ≥ (b.WIDTH : Int))

/-- The cell `Maze.data[x][y]` for indices inside the grid; a missing row or cell
(`undefined`) is `none`, which does not arise on a grid of `HEIGHT` rows of `WIDTH`
columns, as `initArray` builds it. -/
def cell (b : Board) (x y : Int) : Option Nat :=
  (b.data.getD x.toNat []).get? y.toNat

/-- The function `isSafe(x, y)`: inside the bounds and `Maze.data[x][y] === 1`. -/
def isSafe (b : Board) (x y : Int) : Bool :=
  let xValid := decide (x ≥ 0) && decide (x < (b.HEIGHT : Int))
  let yValid := decide (y ≥ 0) && decide (y < (b.WIDTH : Int))
  let withinBounds := xValid && yValid
  if !withinBounds then false
  else cell b x y == some 1

/-! ## Solution path -/

/-- The function `addPosition(x, y)`: push `{x, y}` on `Maze.sol` and `Maze.stack`. -/
def addPosition (s : State) (x y : Int) : State :=
  { s with sol := s.sol ++ [⟨x, y⟩], stack := s.stack ++ [⟨x, y⟩] }

/-- The function `removePosition()`: pop `Maze.sol` and `Maze.stack` (a pop of an
empty array leaves it empty). -/
def removePosition (s : State) : State :=
  { s with sol := s.sol.dropLast, stack := s.stack.dropLast }

/-! ## The search -/

/-- The `for` loop of `solveMazeUtil` over the remaining candidate `points`,
followed by the code after the loop; `point` is the coordinate of the running
call and `rec` the recursive call. -/
def visit (rec : Int → Int → State → Option (Bool × State)) (point : Point) :
    List Point → State → Option (Bool × State)
  | [], s =>
    -- no neighbour returned `true`
    let s := { s with memo := addPoint s.memo point false }
    let s := { s with pathSoFar := removePoint s.pathSoFar point }
    let s := removePosition s
    some (false, s)
  | singlePoint :: rest, s =>
    if containsPoint s.memo singlePoint then
      some ((getPoint s.memo singlePoint).getD false, s)
    else
      match rec singlePoint.x singlePoint.y s with
      | none => none
      | some (true, s) => some (true, { s with memo := addPoint s.memo singlePoint true })
      | some (false, s) => visit rec point rest s

/-- The function `solveMazeUtil(x, y, pathSoFar, memo)`. The first argument
bounds the depth of the recursion; `none` means that the bound was reached. -/
def solveMazeUtil (b : Board) : Nat → Int → Int → State → Option (Bool × State)
  | 0 => fun _ _ _ => none
  | fuel + 1 => fun x y s =>
    let point : Point := ⟨x, y⟩
    if outOfBounds b x y || !isSafe b x y || containsPoint s.pathSoFar point then
      some (false, s)
    else if x = (b.HEIGHT : Int) - 1 ∧ y = (b.WIDTH : Int) - 1 then
      some (true, addPosition s x y)
    else
      let s := { s with pathSoFar := addPoint s.pathSoFar point point }
      let s := addPosition s x y
      let points : List Point := [⟨x + 1, y⟩, ⟨x, y + 1⟩, ⟨x - 1, y⟩, ⟨x, y - 1⟩]
      visit (solveMazeUtil b fuel) point points s

/-- The function `solveMaze()`: a fresh `pathSoFar` and a fresh `memo`, then
`solveMazeUtil(0, 0, pathSoFar, memo)`; `sol` and `stack` are the contents of
`Maze.sol` and `Maze.stack` at the time of the call, which `solveMaze` does not
reset. The depth bound `HEIGHT * WIDTH + 1` is never reached
(`solveMaze_terminates`). The verdict of `solveMazeUtil` is kept in the result. -/
def solveMaze (b : Board) (sol stack : List Point) : Option (Bool × State) :=
  solveMazeUtil b (b.HEIGHT * b.WIDTH + 1) 0 0 ⟨sol, stack, [], []⟩

/-- A run of `solveMaze()` on a freshly loaded program: `Maze.sol` and
`Maze.stack` are still the empty arrays of the declaration of `Maze`. -/
def solve (b : Board) : Option (Bool × State) :=
  solveMaze b [] []

/-! ## Notions of the specification -/

/-- The goal coordinate `(HEIGHT - 1, WIDTH - 1)`. -/
def goal (b : Board) : Point :=
  ⟨(b.HEIGHT : Int) - 1, (b.WIDTH : Int) - 1⟩

/-- A 4-directional step: the two coordinates differ by exactly one unit in
exactly one axis. -/
def adjacent (p q : Point) : Prop :=
  (p.x = q.x ∧ (p.y - q.y).natAbs = 1) ∨ (p.y = q.y ∧ (p.x - q.x).natAbs = 1)

instance (p q : Point) : Decidable (adjacent p q) :=
  inferInstanceAs (Decidable (_ ∨ _))

/-- A sequence of valid in-bounds cells, joined by 4-directional steps, that leads
from `from_` to the goal of the board. -/
def isPathFrom (b : Board) (from_ : Point) (l : List Point) : Prop :=
  l.head? = some from_ ∧ l.getLast? = some (goal b) ∧ l.Chain' adjacent ∧
    ∀ p ∈ l, isSafe b p.x p.y = true

/-- A path from `(0,0)` to `(HEIGHT - 1, WIDTH - 1)` exists on the board. -/
def hasPath (b : Board) : Prop :=
  ∃ l, isPathFrom b ⟨0, 0⟩ l

/-! ## Boards used as examples -/

/-- The board with a single valid cell. -/
def board1x1 : Board := ⟨1, 1, [[1]]⟩

/-- The board with a single cell, which is invalid. -/
def board1x1Blocked : Board := ⟨1, 1, [[0]]⟩

/-- The fully valid board of two rows and two columns. -/
def board2x2 : Board := ⟨2, 2, [[1, 1], [1, 1]]⟩

/-- A board of two rows and three columns whose last column, and with it the
goal, is invalid. -/
def board2x3 : Board := ⟨2, 3, [[1, 1, 0], [1, 1, 0]]⟩

/-- The board of three rows and three columns whose cells are all valid except
`(1,1)`. -/
def board3x3 : Board := ⟨3, 3, [[1, 1, 1], [1, 0, 1], [1, 1, 1]]⟩

/-- A board of four rows and four columns with a dead end below `(1,0)`. -/
def board4x4 : Board :=
  ⟨4, 4, [[1, 1, 1, 1], [1, 0, 0, 1], [1, 1, 0, 1], [1, 1, 0, 1]]⟩

/-- A board of four rows and six columns on which the only way to the goal goes
up from `(2,2)`. -/
def board4x6 : Board :=
  ⟨4, 6, [[1, 0, 1, 1, 1, 1], [1, 0, 1, 0, 0, 1], [1, 1, 1, 1, 0, 1], [0, 0, 1, 1, 0, 1]]⟩

/-- A path to the goal of `board4x6`. -/
def path4x6 : List Point :=
  [⟨0, 0⟩, ⟨1, 0⟩, ⟨2, 0⟩, ⟨2, 1⟩, ⟨2, 2⟩, ⟨1, 2⟩, ⟨0, 2⟩, ⟨0, 3⟩, ⟨0, 4⟩, ⟨0, 5⟩, ⟨1, 5⟩,
    ⟨2, 5⟩, ⟨3, 5⟩]

/-- The state that a run of `solveMaze()` leaves on `board2x2`. -/
def final2x2 : State :=
  ⟨[⟨0, 0⟩, ⟨1, 0⟩, ⟨1, 1⟩], [⟨0, 0⟩, ⟨1, 0⟩, ⟨1, 1⟩],
    [("10", ⟨1, 0⟩), ("00", ⟨0, 0⟩)], [("10", true), ("11", true)]⟩

/-! ## Auxiliary notions of the proofs -/

/-- The state `s` with `pre` put in front of the solution path and `pre2` in front
of the stack: the same search started on arrays that were not empty. -/
def shift (pre pre2 : List Point) (s : State) : State :=
  { s with sol := pre ++ s.sol, stack := pre2 ++ s.stack }

/-- No entry of the memo holds the verdict `true`. -/
def NoTrue (memo : JsMap Bool) : Prop :=
  ∀ e ∈ memo, e.2 = false

/-- Every key of `m` is a key of `n`. -/
def KeysLe {V W : Type} (m : JsMap V) (n : JsMap W) : Prop :=
  ∀ k, hasOwnProperty m k = true → hasOwnProperty n k = true

/-- The key `k` is held by the path-so-far map or by the memo of `s`. -/
def Tracked (s : State) (k : String) : Prop :=
  hasOwnProperty s.pathSoFar k = true ∨ hasOwnProperty s.memo k = true

/-- The invariant behind the absence of repetitions: the solution path has no
repeated coordinate and the key of each of its coordinates is tracked. -/
def Inv (s : State) : Prop :=
  s.sol.Nodup ∧ ∀ p ∈ s.sol, Tracked s (hash p)

/-- The coordinates inside the grid, row by row. -/
def cells (b : Board) : List Point :=
  (List.range b.HEIGHT).flatMap
    (fun (i : Nat) => (List.range b.WIDTH).map (fun (j : Nat) => (⟨(i : Int), (j : Int)⟩ : Point)))

/-- The number of keys of cells of the grid that are not yet keys of `m`: the
measure that bounds the depth of the recursion. -/
def free (b : Board) (m : JsMap Point) : Nat :=
  (((cells b).map hash).toFinset.filter (fun k => hasOwnProperty m k = false)).card

/-- The coordinate `p` is inside the grid and its cell is marked valid. -/
def OnBoard (b : Board) (p : Point) : Prop :=
  0 ≤ p.x ∧ p.x < (b.HEIGHT : Int) ∧ 0 ≤ p.y ∧ p.y < (b.WIDTH : Int) ∧ cell b p.x p.y = some 1

/-- Every coordinate of the solution path is a valid cell of the grid, and every
entry of the path-so-far map holds a valid cell of the grid under its own key. -/
def Valid (b : Board) (s : State) : Prop :=
  (∀ p ∈ s.sol, OnBoard b p) ∧ ∀ e ∈ s.pathSoFar, e.1 = hash e.2 ∧ OnBoard b e.2

/-- The keys of the memo are pairwise distinct and are keys of cells of the grid:
what holds of the memo during a search. -/
def MemoOk (b : Board) (memo : JsMap Bool) : Prop :=
  (memo.map Prod.fst).Nodup ∧ ∀ e ∈ memo, e.1 ∈ (cells b).map hash

/-- A board of two rows and two columns whose goal `(1,1)` is invalid. -/
def board2x2Corner : Board := ⟨2, 2, [[1, 1], [1, 0]]⟩

/-- The state in which the search on `board2x2Corner` calls `solveMazeUtil` on
`(0,1)`: the call on `(1,0)` was exhausted and left its verdict in the memo. -/
def mid2x2 : State :=
  ⟨[⟨0, 0⟩], [⟨0, 0⟩], [("00", ⟨0, 0⟩)], [("10", false)]⟩

/-- The state in which the loop of `solveMazeUtil` reaches the candidate that
follows the candidates `tried`, when it started in the state `s`: none of the
candidates tried was held by the memo and the call on each of them returned
`false`; `none` when the loop does not get that far. -/
def loopState (rec : Int → Int → State → Option (Bool × State)) :
    List Point → State → Option State
  | [], s => some s
  | singlePoint :: tried, s =>
    if containsPoint s.memo singlePoint then none
    else
      match rec singlePoint.x singlePoint.y s with
      | some (false, s) => loopState rec tried s
      | _ => none

/-- The calls of `solveMazeUtil` made in a search started by `solveMaze`, with the
depth still allowed, the coordinate and the state of each: the call of line 254,
with a fresh path-so-far map and a fresh memo, and the calls of line 366, made
by a call of the search that passed the tests of lines 335 and 339, for the
candidate `sp` that the loop has reached and that the memo does not hold. -/
inductive InSearch (b : Board) : Nat → Int → Int → State → Prop where
  | first (sol stack : List Point) :
      InSearch b (b.HEIGHT * b.WIDTH + 1) 0 0 ⟨sol, stack, [], []⟩
  | inner (fuel : Nat) (x y : Int) (s : State) (tried : List Point) (sp : Point)
      (rest : List Point) (u : State) :
      InSearch b (fuel + 1) x y s →
      outOfBounds b x y = false → isSafe b x y = true →
      containsPoint s.pathSoFar ⟨x, y⟩ = false → (⟨x, y⟩ : Point) ≠ goal b →
      [⟨x + 1, y⟩, ⟨x, y + 1⟩, ⟨x - 1, y⟩, ⟨x, y - 1⟩] = tried ++ sp :: rest →
      loopState (solveMazeUtil b fuel) tried
        (addPosition { s with pathSoFar := (addPoint s.pathSoFar ⟨x, y⟩ ⟨x, y⟩) } x y) = some u →
      containsPoint u.memo sp = false →
      InSearch b fuel sp.x sp.y u

/-- A board of three rows and three columns on which the search from `(0,0)` runs
into a dead end through `(0,1)`, `(1,1)`, `(1,2)` and `(0,2)`. -/
def board3x3Dead : Board := ⟨3, 3, [[1, 1, 1], [0, 1, 1], [0, 0, 0]]⟩

/-- The state that a run of `solveMaze()` leaves on `board3x3Dead`. -/
def final3x3Dead : State :=
  ⟨[⟨0, 0⟩], [⟨0, 0⟩], [("01", ⟨0, 1⟩)],
    [("00", false), ("11", false), ("12", false), ("02", false)]⟩

/-! ## The oracle client

The server is modelled by the sequence of its answers to the requests of one
function call, in the order in which the requests are sent. The two libraries
that `coda.js` loads are modelled as far as the code relies on them:

* `axios.get` and `axios.post`, used with the default configuration, resolve
  with the response when its status is in the range 200 to 299 and otherwise
  reject with an error that carries the response (`err.response.status`); a
  request that gets no response rejects with an error without `response`;
* `retry(fn, {retries: n})` of `async-retry` runs `fn`, and runs it again
  whenever it rejects, at most `n` more times; it rejects at once with the
  argument of `bail`; after the last attempt it rejects with one of the errors
  of the attempts.
-/

/-- What the server does with one request: it answers with a status and a body, or
the request gets no response at all. -/
inductive Answer (α : Type) where
  | http (status : Nat) (data : α)
  | failed
deriving DecidableEq, Repr

/-- The values that the client code catches: an error of `axios`, with the status
of the response when there is one, `new Error('Unauthorized')`, or a `TypeError`
raised by reading a property of `undefined`. -/
inductive Err where
  | axios (response : Option Nat)
  | unauthorized
  | typeError
deriving DecidableEq, Repr

/-- The default `validateStatus` of `axios`: `status >= 200 && status < 300`. -/
def validateStatus (status : Nat) : Bool :=
  decide (200 ≤ status) && decide (status < 300)

/-- One `await axios.get(url)` or `await axios.post(url)`: the response `res`
(`res.status`, `res.data`) when the promise resolves, the error when it rejects. -/
def axiosRequest {α : Type} : Answer α → Except Err (Nat × α)
  | .http status data =>
    if validateStatus status then .ok (status, data) else .error (.axios (some status))
  | .failed => .error (.axios none)

/-- What `isValid` returns: `{ok: true}`, `{ok: false}`, or `undefined` when the
`catch` block ends without a `return`. -/
inductive CheckResult where
  | ok (ok : Bool)
  | undefined
deriving DecidableEq, Repr

/-- The function `isValid(x, y)`, run against the answers of the server to the
requests for that cell: the value returned (or the error with which the promise
rejects) and the number of requests sent; `none` when the answers run out.
`retry` with `retries: 0` makes one attempt and rejects with its error. The
test `err == undefined` is false of every error of `axios`; reading
`err.response.status` of an error without response raises a `TypeError` inside
the `catch` block. -/
def isValid : List (Answer Unit) → Option (Except Err CheckResult × Nat)
  | [] => none
  | answer :: rest =>
    match axiosRequest answer with
    | .ok _ => some (.ok (.ok true), 1)
    | .error (.axios (some status)) =>
      if status = 503 then
        (isValid rest).map (fun r => (r.1, r.2 + 1))
      else if 403 = status then
        some (.ok (.ok false), 1)
      else
        some (.ok .undefined, 1)
    | .error _ => some (.error .typeError, 1)

/-- The body `{width, height, id}` of the answer to `POST /maze`. -/
structure MazeData where
  width : Nat
  height : Nat
  id : String
deriving DecidableEq, Repr

/-- The attempts of `retry(async bail => ..., {retries})` in `getMaze`, run
against the answers of the server: the data with which the promise resolves (or
the error with which it rejects) and the number of requests sent; `none` when
the answers run out. `errors` are the errors of the attempts made so far and
`mainError` is the choice that `async-retry` makes among them after the last
attempt. -/
def getMazeAttempts (mainError : List Err → Err) :
    Nat → List Err → List (Answer MazeData) → Option (Except Err MazeData × Nat)
  | _, _, [] => none
  | retries, errors, answer :: rest =>
    match axiosRequest answer with
    | .ok (status, data) =>
      if 403 = status then
        -- don't retry upon 403
        some (.error .unauthorized, 1)
      else
        some (.ok data, 1)
    | .error err =>
      match retries with
      | 0 => some (.error (mainError (errors ++ [err])), 1)
      | retries + 1 =>
        (getMazeAttempts mainError retries (errors ++ [err]) rest).map
          (fun r => (r.1, r.2 + 1))

/-- What `getMaze` returns: `{ok: true, data}` or `{ok: false, err}`. -/
structure MazeResult where
  ok : Bool
  data : Option MazeData
  err : Option Err
deriving DecidableEq, Repr

/-- The function `getMaze()`, run against the answers of the server: the object
returned and the number of requests sent. -/
def getMaze (mainError : List Err → Err) (answers : List (Answer MazeData)) :
    Option (MazeResult × Nat) :=
  match getMazeAttempts mainError 5 [] answers with
  | none => none
  | some (.ok data, requests) => some (⟨true, some data, none⟩, requests)
  | some (.error err, requests) => some (⟨false, none, some err⟩, requests)

/-! ## Board initialisation -/

/-- The assignment `arr[i] = v` on an array, for an index `i` that is at most the
length of the array, as in all the assignments of `coda.js`: an element is
replaced, or appended at the end. -/
def assign {α : Type} (arr : List α) (i : Nat) (v : α) : List α :=
  if i < arr.length then arr.set i v else arr ++ [v]

/-- The assignment `arr[i][j] = v` on an array of arrays that has a row `i`. -/
def assign2 {α : Type} (arr : List (List α)) (i j : Nat) (v : α) : List (List α) :=
  arr.set i (assign (arr.getD i []) j v)

/-- The function `initArray(arr1, arr2, width, height)`, for its first array
`arr1` (`Maze.data`). The second array `arr2` (`Maze.memo`), which no other
function reads, is filled with `false` in the same way and is left out. -/
def initArray (arr1 : List (List Nat)) (width height : Nat) : List (List Nat) :=
  (List.range height).foldl
    (fun arr1 i =>
      (List.range width).foldl (fun arr1 j => assign2 arr1 i j 0) (assign arr1 i []))
    arr1

/-- The global `Maze` as declared: `WIDTH: 0`, `HEIGHT: 0`, `data: []`. -/
def emptyMaze : Board := ⟨0, 0, []⟩

/-- The function `initMazeProps(data)`; `Maze.ID`, which only enters the
addresses of the requests, is left out. -/
def initMazeProps (maze : Board) (data : MazeData) : Board :=
  ⟨data.height, data.width, initArray maze.data data.width data.height⟩

/-- The inner loop of `getValidBoardMoves` for the row `x`, over the columns
`ys`; `oracle x y` are the answers of the server to the requests for the cell
`(x,y)`. Destructuring `{ ok }` from `undefined` raises a `TypeError`. -/
def checkCells (oracle : Nat → Nat → List (Answer Unit)) (x : Nat) :
    List Nat → List (List Nat) → Option (Except Err (List (List Nat)))
  | [], data => some (.ok data)
  | y :: ys, data =>
    match isValid (oracle x y) with
    | none => none
    | some (.error err, _) => some (.error err)
    | some (.ok .undefined, _) => some (.error .typeError)
    | some (.ok (.ok ok), _) =>
      checkCells oracle x ys (assign2 data x y (if ok then 1 else 0))

/-- The outer loop of `getValidBoardMoves`, over the rows `xs`. -/
def checkRows (oracle : Nat → Nat → List (Answer Unit)) (width : Nat) :
    List Nat → List (List Nat) → Option (Except Err (List (List Nat)))
  | [], data => some (.ok data)
  | x :: xs, data =>
    match checkCells oracle x (List.range width) data with
    | none => none
    | some (.error err) => some (.error err)
    | some (.ok data) => checkRows oracle width xs data

/-- The function `getValidBoardMoves()`: the board when the promise resolves, the
error when it rejects, `none` when the answers of the server run out. -/
def getValidBoardMoves (maze : Board) (oracle : Nat → Nat → List (Answer Unit)) :
    Option (Except Err Board) :=
  match checkRows oracle maze.WIDTH (List.range maze.HEIGHT) maze.data with
  | none => none
  | some (.error err) => some (.error err)
  | some (.ok data) => some (.ok { maze with data := data })

/-- A server that answers the single request for the cell `(x,y)` with a success
when `valid x y` holds and with the status 403 (forbidden) otherwise. -/
def cellOracle (valid : Nat → Nat → Bool) (x y : Nat) : List (Answer Unit) :=
  [if valid x y then Answer.http 200 () else Answer.http 403 ()]

/-- The grid of `height` rows of `width` columns that holds `1` where `valid`
holds and `0` elsewhere. -/
def gridOf (valid : Nat → Nat → Bool) (width height : Nat) : List (List Nat) :=
  (List.range height).map
    (fun (x : Nat) => (List.range width).map (fun (y : Nat) => if valid x y then 1 else 0))

/-! ## The fully valid board and the keys of its cells -/

/-- The board of `height` rows of `width` columns whose cells are all valid. -/
def fullBoard (height width : Nat) : Board :=
  ⟨height, width, List.replicate height (List.replicate width 1)⟩

/-- The path straight down the first column and then right along the last row:
`(0,0), (1,0), ..., (height-1,0), (height-1,1), ..., (height-1,width-1)`. -/
def downRight (height width : Nat) : List Point :=
  (List.range height).map (fun (i : Nat) => (⟨(i : Int), 0⟩ : Point)) ++
    (List.range (width - 1)).map
      (fun (j : Nat) => (⟨((height - 1 : Nat) : Int), ((j + 1 : Nat) : Int)⟩ : Point))

/-- The value of a decimal digit character. -/
def digitValue (c : Char) : Nat := c.toNat - 48

/-- The number that a sequence of decimal digits, most significant first, writes
after the digits already read gave `acc`. -/
def decodeFrom (acc : Nat) (l : List Char) : Nat :=
  l.foldl (fun a c => 10 * a + digitValue c) acc

/-! ## Unfolding lemmas -/

theorem solveMazeUtil_zero (b : Board) (x y : Int) (s : State) :
    solveMazeUtil b 0 x y s = none := rfl

theorem solveMazeUtil_succ (b : Board) (fuel : Nat) (x y : Int) (s : State) :
    solveMazeUtil b (fuel + 1) x y s =
      if outOfBounds b x y || !isSafe b x y || containsPoint s.pathSoFar ⟨x, y⟩ then
        some (false, s)
      else if x = (b.HEIGHT : Int) - 1 ∧ y = (b.WIDTH : Int) - 1 then
        some (true, addPosition s x y)
      else
        visit (solveMazeUtil b fuel) ⟨x, y⟩ [⟨x + 1, y⟩, ⟨x, y + 1⟩, ⟨x - 1, y⟩, ⟨x, y - 1⟩]
          (addPosition { s with pathSoFar := addPoint s.pathSoFar ⟨x, y⟩ ⟨x, y⟩ } x y) := rfl

theorem visit_nil (rec : Int → Int → State → Option (Bool × State)) (point : Point)
    (s : State) :
    visit rec point [] s =
      some (false, ⟨s.sol.dropLast, s.stack.dropLast, removePoint s.pathSoFar point,
        addPoint s.memo point false⟩) := rfl

theorem visit_cons_hit (rec : Int → Int → State → Option (Bool × State)) (point sp : Point)
    (rest : List Point) (s : State) (h : containsPoint s.memo sp = true) :
    visit rec point (sp :: rest) s = some ((getPoint s.memo sp).getD false, s) := by
  simp [visit, h]

theorem visit_cons_none (rec : Int → Int → State → Option (Bool × State)) (point sp : Point)
    (rest : List Point) (s : State) (h : containsPoint s.memo sp = false)
    (hr : rec sp.x sp.y s = none) :
    visit rec point (sp :: rest) s = none := by
  simp [visit, h, hr]

theorem visit_cons_true (rec : Int → Int → State → Option (Bool × State)) (point sp : Point)
    (rest : List Point) (s t : State) (h : containsPoint s.memo sp = false)
    (hr : rec sp.x sp.y s = some (true, t)) :
    visit rec point (sp :: rest) s =
      some (true, { t with memo := addPoint t.memo sp true }) := by
  simp [visit, h, hr]

theorem visit_cons_false (rec : Int → Int → State → Option (Bool × State)) (point sp : Point)
    (rest : List Point) (s t : State) (h : containsPoint s.memo sp = false)
    (hr : rec sp.x sp.y s = some (false, t)) :
    visit rec point (sp :: rest) s = visit rec point rest t := by
  simp [visit, h, hr]

/-- Case analysis on one round of the loop of `solveMazeUtil`. -/
theorem visit_cons_cases (rec : Int → Int → State → Option (Bool × State)) (point sp : Point)
    (rest : List Point) (s : State) :
    (containsPoint s.memo sp = true ∧
        visit rec point (sp :: rest) s = some ((getPoint s.memo sp).getD false, s)) ∨
    (containsPoint s.memo sp = false ∧ rec sp.x sp.y s = none ∧
        visit rec point (sp :: rest) s = none) ∨
    (∃ t, containsPoint s.memo sp = false ∧ rec sp.x sp.y s = some (true, t) ∧
        visit rec point (sp :: rest) s =
          some (true, { t with memo := addPoint t.memo sp true })) ∨
    (∃ t, containsPoint s.memo sp = false ∧ rec sp.x sp.y s = some (false, t) ∧
        visit rec point (sp :: rest) s = visit rec point rest t) := by
  cases h : containsPoint s.memo sp with
  | true => exact Or.inl ⟨rfl, visit_cons_hit rec point sp rest s h⟩
  | false =>
    cases hr : rec sp.x sp.y s with
    | none => exact Or.inr (Or.inl ⟨rfl, rfl, visit_cons_none rec point sp rest s h hr⟩)
    | some r =>
      obtain ⟨v, t⟩ := r
      cases v with
      | true =>
        exact Or.inr (Or.inr (Or.inl ⟨t, rfl, rfl, visit_cons_true rec point sp rest s t h hr⟩))
      | false =>
        exact Or.inr (Or.inr (Or.inr ⟨t, rfl, rfl, visit_cons_false rec point sp rest s t h hr⟩))

/-- Case analysis on one call of `solveMazeUtil`: terminal reject, terminal accept
or expansion. -/
theorem solveMazeUtil_cases (b : Board) (fuel : Nat) (x y : Int) (s : State) :
    ((outOfBounds b x y = true ∨ isSafe b x y = false ∨
          containsPoint s.pathSoFar ⟨x, y⟩ = true) ∧
        solveMazeUtil b (fuel + 1) x y s = some (false, s)) ∨
    (outOfBounds b x y = false ∧ isSafe b x y = true ∧
        containsPoint s.pathSoFar ⟨x, y⟩ = false ∧ (⟨x, y⟩ : Point) = goal b ∧
        solveMazeUtil b (fuel + 1) x y s = some (true, addPosition s x y)) ∨
    (outOfBounds b x y = false ∧ isSafe b x y = true ∧
        containsPoint s.pathSoFar ⟨x, y⟩ = false ∧ (⟨x, y⟩ : Point) ≠ goal b ∧
        solveMazeUtil b (fuel + 1) x y s =
          visit (solveMazeUtil b fuel) ⟨x, y⟩
            [⟨x + 1, y⟩, ⟨x, y + 1⟩, ⟨x - 1, y⟩, ⟨x, y - 1⟩]
            (addPosition { s with pathSoFar := addPoint s.pathSoFar ⟨x, y⟩ ⟨x, y⟩ } x y)) := by
  rw [solveMazeUtil_succ]
  by_cases h1 : outOfBounds b x y = true
  · left; simp [h1]
  by_cases h2 : isSafe b x y = false
  · left; simp [h2]
  by_cases h3 : containsPoint s.pathSoFar ⟨x, y⟩ = true
  · left; simp [h3]
  simp only [Bool.not_eq_true] at h1 h3
  simp only [Bool.not_eq_false] at h2
  right
  by_cases hg : x = (b.HEIGHT : Int) - 1 ∧ y = (b.WIDTH : Int) - 1
  · left
    refine ⟨h1, h2, h3, ?_, ?_⟩
    · simp [goal, hg.1, hg.2]
    · simp only [h1, h2, h3]
      simp [hg]
  · right
    refine ⟨h1, h2, h3, ?_, ?_⟩
    · intro h
      apply hg
      simp only [goal, Point.mk.injEq] at h
      exact h
    · simp only [h1, h2, h3]
      simp [hg]

/-! ## The maps -/

theorem hasOwnProperty_iff {V : Type} (m : JsMap V) (k : String) :
    hasOwnProperty m k = true ↔ ∃ e ∈ m, e.1 = k := by
  simp [hasOwnProperty, List.any_eq_true]

theorem hasOwnProperty_addPoint {V : Type} (m : JsMap V) (p : Point) (v : V) (k : String) :
    hasOwnProperty (addPoint m p v) k = true ↔ k = hash p ∨ hasOwnProperty m k = true := by
  simp only [hasOwnProperty_iff, addPoint, deleteKey, List.mem_cons, List.mem_filter]
  constructor
  · rintro ⟨e, he | ⟨he, -⟩, rfl⟩
    · left; rw [he]
    · right; exact ⟨e, he, rfl⟩
  · rintro (rfl | ⟨e, he, rfl⟩)
    · exact ⟨(hash p, v), Or.inl rfl, rfl⟩
    · by_cases hk : e.1 = hash p
      · exact ⟨(hash p, v), Or.inl rfl, hk.symm⟩
      · exact ⟨e, Or.inr ⟨he, by simpa using hk⟩, rfl⟩

theorem hasOwnProperty_removePoint {V : Type} (m : JsMap V) (p : Point) (k : String) :
    hasOwnProperty (removePoint m p) k = true ↔ k ≠ hash p ∧ hasOwnProperty m k = true := by
  simp only [hasOwnProperty_iff, removePoint, deleteKey, List.mem_filter]
  constructor
  · rintro ⟨e, ⟨he, hne⟩, rfl⟩
    exact ⟨by simpa using hne, e, he, rfl⟩
  · rintro ⟨hne, e, he, rfl⟩
    exact ⟨e, ⟨he, by simpa using hne⟩, rfl⟩

theorem hasOwnProperty_nil {V : Type} (k : String) :
    hasOwnProperty ([] : JsMap V) k = false := rfl

/-! ## The solution path only grows at its end -/

theorem visit_length (rec : Int → Int → State → Option (Bool × State)) (point : Point)
    (hrec : ∀ x y s v t, rec x y s = some (v, t) →
      s.sol.length ≤ t.sol.length ∧ s.stack.length ≤ t.stack.length) :
    ∀ pts s v t, visit rec point pts s = some (v, t) →
      s.sol.length - 1 ≤ t.sol.length ∧ s.stack.length - 1 ≤ t.stack.length := by
  intro pts
  induction pts with
  | nil =>
    intro s v t h
    rw [visit_nil] at h
    simp only [Option.some.injEq, Prod.mk.injEq] at h
    obtain ⟨-, rfl⟩ := h
    simp [List.length_dropLast]
  | cons sp rest ih =>
    intro s v t h
    rcases visit_cons_cases rec point sp rest s with
      ⟨-, he⟩ | ⟨-, -, he⟩ | ⟨u, -, hr, he⟩ | ⟨u, -, hr, he⟩
    · rw [he] at h
      simp only [Option.some.injEq, Prod.mk.injEq] at h
      obtain ⟨-, rfl⟩ := h
      exact ⟨Nat.sub_le _ _, Nat.sub_le _ _⟩
    · rw [he] at h; cases h
    · rw [he] at h
      simp only [Option.some.injEq, Prod.mk.injEq] at h
      obtain ⟨-, rfl⟩ := h
      have := hrec _ _ _ _ _ hr
      exact ⟨by simp only; omega, by simp only; omega⟩
    · rw [he] at h
      have h1 := hrec _ _ _ _ _ hr
      have h2 := ih u v t h
      exact ⟨by omega, by omega⟩

theorem solveMazeUtil_length (b : Board) :
    ∀ fuel x y s v t, solveMazeUtil b fuel x y s = some (v, t) →
      s.sol.length ≤ t.sol.length ∧ s.stack.length ≤ t.stack.length := by
  intro fuel
  induction fuel with
  | zero => intro x y s v t h; cases h
  | succ fuel ih =>
    intro x y s v t h
    rcases solveMazeUtil_cases b fuel x y s with ⟨-, he⟩ | ⟨-, -, -, -, he⟩ | ⟨-, -, -, -, he⟩
    · rw [he] at h
      simp only [Option.some.injEq, Prod.mk.injEq] at h
      obtain ⟨-, rfl⟩ := h
      exact ⟨le_refl _, le_refl _⟩
    · rw [he] at h
      simp only [Option.some.injEq, Prod.mk.injEq] at h
      obtain ⟨-, rfl⟩ := h
      simp [addPosition]
    · rw [he] at h
      have := visit_length (solveMazeUtil b fuel) ⟨x, y⟩ ih _ _ _ _ h
      simp only [addPosition, List.length_append, List.length_singleton,
        Nat.add_sub_cancel] at this
      exact this

/-! ## The search does not read the solution path -/

theorem shift_addPosition (pre pre2 : List Point) (s : State) (x y : Int) :
    addPosition (shift pre pre2 s) x y = shift pre pre2 (addPosition s x y) := by
  simp [addPosition, shift]

theorem visit_shift (rec : Int → Int → State → Option (Bool × State)) (point : Point)
    (pre pre2 : List Point)
    (hlen : ∀ x y s v t, rec x y s = some (v, t) →
      s.sol.length ≤ t.sol.length ∧ s.stack.length ≤ t.stack.length)
    (hrec : ∀ x y s, rec x y (shift pre pre2 s) =
      (rec x y s).map (fun r => (r.1, shift pre pre2 r.2))) :
    ∀ pts s, s.sol ≠ [] → s.stack ≠ [] →
      visit rec point pts (shift pre pre2 s) =
        (visit rec point pts s).map (fun r => (r.1, shift pre pre2 r.2)) := by
  intro pts
  induction pts with
  | nil =>
    intro s h1 h2
    rw [visit_nil, visit_nil]
    simp [shift, List.dropLast_append_of_ne_nil, h1, h2]
  | cons sp rest ih =>
    intro s h1 h2
    rcases visit_cons_cases rec point sp rest s with
      ⟨hc, he⟩ | ⟨hc, hr, he⟩ | ⟨u, hc, hr, he⟩ | ⟨u, hc, hr, he⟩
    · rw [he, visit_cons_hit rec point sp rest (shift pre pre2 s) hc]
      rfl
    · rw [he, visit_cons_none rec point sp rest (shift pre pre2 s) hc (by rw [hrec, hr]; rfl)]
      rfl
    · rw [he, visit_cons_true rec point sp rest (shift pre pre2 s) (shift pre pre2 u) hc
        (by rw [hrec, hr]; rfl)]
      rfl
    · rw [he, visit_cons_false rec point sp rest (shift pre pre2 s) (shift pre pre2 u) hc
        (by rw [hrec, hr]; rfl)]
      have hl := hlen _ _ _ _ _ hr
      apply ih u
      · intro h0
        rw [h0] at hl
        exact h1 (List.length_eq_zero.mp (Nat.le_zero.mp hl.1))
      · intro h0
        rw [h0] at hl
        exact h2 (List.length_eq_zero.mp (Nat.le_zero.mp hl.2))

theorem solveMazeUtil_shift (b : Board) (pre pre2 : List Point) :
    ∀ fuel x y s, solveMazeUtil b fuel x y (shift pre pre2 s) =
      (solveMazeUtil b fuel x y s).map (fun r => (r.1, shift pre pre2 r.2)) := by
  intro fuel
  induction fuel with
  | zero => intro x y s; rfl
  | succ fuel ih =>
    intro x y s
    rw [solveMazeUtil_succ, solveMazeUtil_succ]
    have hp : (shift pre pre2 s).pathSoFar = s.pathSoFar := rfl
    rw [hp]
    split
    · rfl
    · split
      · rw [shift_addPosition]; rfl
      · have hs : addPosition
            { shift pre pre2 s with pathSoFar := addPoint s.pathSoFar ⟨x, y⟩ ⟨x, y⟩ } x y =
            shift pre pre2
              (addPosition { s with pathSoFar := addPoint s.pathSoFar ⟨x, y⟩ ⟨x, y⟩ } x y) := by
          simp [addPosition, shift]
        rw [hs]
        apply visit_shift (solveMazeUtil b fuel) ⟨x, y⟩ pre pre2
          (solveMazeUtil_length b fuel) ih
        · simp [addPosition]
        · simp [addPosition]

/-! ## Termination: the depth bound of `solveMaze` is never reached -/

theorem cells_length (b : Board) : (cells b).length = b.HEIGHT * b.WIDTH := by
  unfold cells
  generalize b.HEIGHT = h
  induction h with
  | zero => simp
  | succ n ih =>
    rw [List.range_succ, List.flatMap_append, List.length_append, ih]
    simp [Nat.succ_mul]

theorem mem_cells (b : Board) (x y : Int) (h : outOfBounds b x y = false) :
    (⟨x, y⟩ : Point) ∈ cells b := by
  simp only [outOfBounds, Bool.or_eq_false_iff, decide_eq_false_iff_not, not_lt, ge_iff_le,
    not_le] at h
  obtain ⟨⟨⟨hx0, hx1⟩, hy0⟩, hy1⟩ := h
  simp only [cells, List.mem_flatMap, List.mem_range, List.mem_map, Point.mk.injEq]
  refine ⟨x.toNat, by omega, y.toNat, by omega, ?_, ?_⟩
  · exact Int.toNat_of_nonneg hx0
  · exact Int.toNat_of_nonneg hy0

theorem free_le (b : Board) (m : JsMap Point) : free b m ≤ b.HEIGHT * b.WIDTH := by
  unfold free
  calc (((cells b).map hash).toFinset.filter (fun k => hasOwnProperty m k = false)).card
      ≤ ((cells b).map hash).toFinset.card := Finset.card_filter_le _ _
    _ ≤ ((cells b).map hash).length := List.toFinset_card_le _
    _ = b.HEIGHT * b.WIDTH := by rw [List.length_map, cells_length]

theorem free_mono (b : Board) (m n : JsMap Point) (h : KeysLe m n) : free b n ≤ free b m := by
  unfold free
  apply Finset.card_le_card
  intro k hk
  simp only [Finset.mem_filter] at hk ⊢
  refine ⟨hk.1, ?_⟩
  cases hm : hasOwnProperty m k with
  | false => rfl
  | true =>
    have := h k hm
    rw [hk.2] at this
    cases this

theorem free_addPoint_lt (b : Board) (m : JsMap Point) (x y : Int) (v : Point)
    (hin : outOfBounds b x y = false) (hm : hasOwnProperty m (hash ⟨x, y⟩) = false) :
    free b (addPoint m ⟨x, y⟩ v) < free b m := by
  unfold free
  apply Finset.card_lt_card
  rw [Finset.ssubset_iff_of_subset]
  · refine ⟨hash ⟨x, y⟩, ?_, ?_⟩
    · simp only [Finset.mem_filter, List.mem_toFinset, List.mem_map]
      exact ⟨⟨⟨x, y⟩, mem_cells b x y hin, rfl⟩, hm⟩
    · simp only [Finset.mem_filter, not_and, Bool.not_eq_false]
      intro _
      exact (hasOwnProperty_addPoint m ⟨x, y⟩ v _).mpr (Or.inl rfl)
  · intro k hk
    simp only [Finset.mem_filter] at hk ⊢
    refine ⟨hk.1, ?_⟩
    cases hk2 : hasOwnProperty m k with
    | false => rfl
    | true =>
      have := (hasOwnProperty_addPoint m ⟨x, y⟩ v k).mpr (Or.inr hk2)
      rw [hk.2] at this
      cases this

theorem KeysLe_refl {V : Type} (m : JsMap V) : KeysLe m m := fun _ h => h

theorem KeysLe_trans {U V W : Type} {m : JsMap U} {n : JsMap V} {o : JsMap W}
    (h1 : KeysLe m n) (h2 : KeysLe n o) : KeysLe m o := fun k h => h2 k (h1 k h)

theorem KeysLe_removePoint {V W : Type} {m : JsMap V} {n : JsMap W} (p : Point)
    (h : KeysLe m n) : KeysLe (removePoint m p) (removePoint n p) := by
  intro k hk
  rw [hasOwnProperty_removePoint] at hk ⊢
  exact ⟨hk.1, h k hk.2⟩

theorem KeysLe_removePoint_self {V W : Type} (m : JsMap V) (n : JsMap W) (p : Point) (h : KeysLe m n) :
    KeysLe (removePoint m p) n := by
  intro k hk
  rw [hasOwnProperty_removePoint] at hk
  exact h k hk.2

theorem KeysLe_remove_add {V : Type} (m : JsMap V) (p : Point) (v : V)
    (h : hasOwnProperty m (hash p) = false) : KeysLe m (removePoint (addPoint m p v) p) := by
  intro k hk
  rw [hasOwnProperty_removePoint, hasOwnProperty_addPoint]
  refine ⟨?_, Or.inr hk⟩
  rintro rfl
  rw [h] at hk
  cases hk

theorem visit_terminates (b : Board) (fuel : Nat) (point : Point) (m0 : JsMap Point)
    (hrec : ∀ x y s, free b s.pathSoFar < fuel →
      ∃ v t, solveMazeUtil b fuel x y s = some (v, t) ∧ KeysLe s.pathSoFar t.pathSoFar)
    (hfree : free b m0 < fuel) :
    ∀ pts s, KeysLe m0 s.pathSoFar →
      ∃ v t, visit (solveMazeUtil b fuel) point pts s = some (v, t) ∧
        KeysLe (removePoint m0 point) t.pathSoFar := by
  intro pts
  induction pts with
  | nil =>
    intro s hs
    exact ⟨_, _, visit_nil _ _ _, KeysLe_removePoint point hs⟩
  | cons sp rest ih =>
    intro s hs
    have hlt : free b s.pathSoFar < fuel := lt_of_le_of_lt (free_mono b _ _ hs) hfree
    obtain ⟨v, u, hu, hle⟩ := hrec sp.x sp.y s hlt
    rcases visit_cons_cases (solveMazeUtil b fuel) point sp rest s with
      ⟨-, he⟩ | ⟨-, hr, -⟩ | ⟨t, -, hr, he⟩ | ⟨t, -, hr, he⟩
    · exact ⟨_, _, he, KeysLe_removePoint_self _ _ point hs⟩
    · rw [hr] at hu; cases hu
    · refine ⟨_, _, he, ?_⟩
      rw [hr] at hu
      simp only [Option.some.injEq, Prod.mk.injEq] at hu
      obtain ⟨-, rfl⟩ := hu
      exact KeysLe_removePoint_self _ _ point (KeysLe_trans hs hle)
    · rw [hr] at hu
      simp only [Option.some.injEq, Prod.mk.injEq] at hu
      obtain ⟨-, rfl⟩ := hu
      rw [he]
      exact ih t (KeysLe_trans hs hle)

theorem solveMazeUtil_terminates (b : Board) :
    ∀ fuel x y s, free b s.pathSoFar < fuel →
      ∃ v t, solveMazeUtil b fuel x y s = some (v, t) ∧ KeysLe s.pathSoFar t.pathSoFar := by
  intro fuel
  induction fuel with
  | zero => intro x y s h; exact absurd h (Nat.not_lt_zero _)
  | succ fuel ih =>
    intro x y s h
    rcases solveMazeUtil_cases b fuel x y s with
      ⟨-, he⟩ | ⟨-, -, -, -, he⟩ | ⟨h1, -, h3, -, he⟩
    · exact ⟨_, _, he, KeysLe_refl _⟩
    · exact ⟨_, _, he, KeysLe_refl _⟩
    · rw [he]
      have hlt : free b (addPoint s.pathSoFar ⟨x, y⟩ ⟨x, y⟩) < fuel := by
        have := free_addPoint_lt b s.pathSoFar x y ⟨x, y⟩ h1 h3
        omega
      obtain ⟨v, t, ht, hle⟩ := visit_terminates b fuel ⟨x, y⟩ _ ih hlt
        [⟨x + 1, y⟩, ⟨x, y + 1⟩, ⟨x - 1, y⟩, ⟨x, y - 1⟩]
        (addPosition { s with pathSoFar := addPoint s.pathSoFar ⟨x, y⟩ ⟨x, y⟩ } x y)
        (KeysLe_refl _)
      exact ⟨v, t, ht, KeysLe_trans (KeysLe_remove_add s.pathSoFar ⟨x, y⟩ ⟨x, y⟩ h3) hle⟩

theorem solveMaze_terminates (b : Board) (sol stack : List Point) :
    ∃ v t, solveMaze b sol stack = some (v, t) := by
  obtain ⟨v, t, h, -⟩ := solveMazeUtil_terminates b (b.HEIGHT * b.WIDTH + 1) 0 0
    ⟨sol, stack, [], []⟩ (Nat.lt_succ_of_le (free_le b _))
  exact ⟨v, t, h⟩

/-! ## The depth bound does not change a result -/

theorem visit_mono (rec1 rec2 : Int → Int → State → Option (Bool × State)) (point : Point)
    (hrec : ∀ x y s r, rec1 x y s = some r → rec2 x y s = some r) :
    ∀ pts s r, visit rec1 point pts s = some r → visit rec2 point pts s = some r := by
  intro pts
  induction pts with
  | nil => intro s r h; rw [visit_nil] at h ⊢; exact h
  | cons sp rest ih =>
    intro s r h
    rcases visit_cons_cases rec1 point sp rest s with
      ⟨hc, he⟩ | ⟨-, -, he⟩ | ⟨u, hc, hr, he⟩ | ⟨u, hc, hr, he⟩
    · rw [he] at h
      rw [visit_cons_hit rec2 point sp rest s hc]
      exact h
    · rw [he] at h; cases h
    · rw [he] at h
      rw [visit_cons_true rec2 point sp rest s u hc (hrec _ _ _ _ hr)]
      exact h
    · rw [he] at h
      rw [visit_cons_false rec2 point sp rest s u hc (hrec _ _ _ _ hr)]
      exact ih u r h

theorem solveMazeUtil_fuel_succ (b : Board) :
    ∀ fuel x y s r, solveMazeUtil b fuel x y s = some r →
      solveMazeUtil b (fuel + 1) x y s = some r := by
  intro fuel
  induction fuel with
  | zero => intro x y s r h; cases h
  | succ fuel ih =>
    intro x y s r h
    rw [solveMazeUtil_succ] at h ⊢
    split
    · rename_i hc; rw [if_pos hc] at h; exact h
    · rename_i hc
      rw [if_neg hc] at h
      split
      · rename_i hg; rw [if_pos hg] at h; exact h
      · rename_i hg
        rw [if_neg hg] at h
        exact visit_mono _ _ _ ih _ _ _ h

theorem solveMazeUtil_fuel_mono (b : Board) (n m : Nat) (hnm : n ≤ m) (x y : Int) (s : State)
    (r : Bool × State) (h : solveMazeUtil b n x y s = some r) :
    solveMazeUtil b m x y s = some r := by
  induction m with
  | zero =>
    have : n = 0 := Nat.le_zero.mp hnm
    subst this
    exact h
  | succ m ih =>
    rcases Nat.lt_or_eq_of_le hnm with hlt | heq
    · exact solveMazeUtil_fuel_succ b m x y s r (ih (Nat.lt_succ_iff.mp hlt))
    · subst heq; exact h

/-- A larger depth bound than the one of `solveMaze` gives the same result. -/
theorem solveMaze_fuel_irrelevant (b : Board) (sol stack : List Point) (n : Nat)
    (hn : b.HEIGHT * b.WIDTH + 1 ≤ n) :
    solveMazeUtil b n 0 0 ⟨sol, stack, [], []⟩ = solveMaze b sol stack := by
  obtain ⟨v, t, h⟩ := solveMaze_terminates b sol stack
  rw [h]
  exact solveMazeUtil_fuel_mono b _ n hn 0 0 _ _ h

/-! ## The solution path is extended, never cut below its start -/

theorem dropLast_isPrefix_mono {l m : List Point} (h : l <+: m) :
    l.dropLast <+: m.dropLast := by
  obtain ⟨d, rfl⟩ := h
  by_cases hd : d = []
  · subst hd; simp
  · rw [List.dropLast_append_of_ne_nil _ hd]
    exact ( List.dropLast_prefix l).trans (List.prefix_append l _)

theorem visit_extends (rec : Int → Int → State → Option (Bool × State)) (point : Point)
    (hrec : ∀ x y s v t, rec x y s = some (v, t) → s.sol <+: t.sol) :
    ∀ pts s v t, visit rec point pts s = some (v, t) → s.sol.dropLast <+: t.sol := by
  intro pts
  induction pts with
  | nil =>
    intro s v t h
    rw [visit_nil] at h
    simp only [Option.some.injEq, Prod.mk.injEq] at h
    obtain ⟨-, rfl⟩ := h
    exact List.prefix_refl _
  | cons sp rest ih =>
    intro s v t h
    rcases visit_cons_cases rec point sp rest s with
      ⟨-, he⟩ | ⟨-, -, he⟩ | ⟨u, -, hr, he⟩ | ⟨u, -, hr, he⟩
    · rw [he] at h
      simp only [Option.some.injEq, Prod.mk.injEq] at h
      obtain ⟨-, rfl⟩ := h
      exact List.dropLast_prefix _
    · rw [he] at h; cases h
    · rw [he] at h
      simp only [Option.some.injEq, Prod.mk.injEq] at h
      obtain ⟨-, rfl⟩ := h
      exact ( List.dropLast_prefix _).trans (hrec _ _ _ true u hr)
    · rw [he] at h
      exact (dropLast_isPrefix_mono (hrec _ _ _ _ _ hr)).trans (ih u v t h)

theorem solveMazeUtil_extends (b : Board) :
    ∀ fuel x y s v t, solveMazeUtil b fuel x y s = some (v, t) → s.sol <+: t.sol := by
  intro fuel
  induction fuel with
  | zero => intro x y s v t h; cases h
  | succ fuel ih =>
    intro x y s v t h
    rcases solveMazeUtil_cases b fuel x y s with ⟨-, he⟩ | ⟨-, -, -, -, he⟩ | ⟨-, -, -, -, he⟩
    · rw [he] at h
      simp only [Option.some.injEq, Prod.mk.injEq] at h
      obtain ⟨-, rfl⟩ := h
      exact List.prefix_refl _
    · rw [he] at h
      simp only [Option.some.injEq, Prod.mk.injEq] at h
      obtain ⟨-, rfl⟩ := h
      exact List.prefix_append _ _
    · rw [he] at h
      have := visit_extends (solveMazeUtil b fuel) ⟨x, y⟩ ih _ _ _ _ h
      simpa [addPosition] using this

/-! ## A verdict `true` comes from a chain of calls that reaches the goal -/

theorem NoTrue_nil : NoTrue [] := by
  intro e he
  cases he

theorem NoTrue_addPoint_false (m : JsMap Bool) (p : Point) (h : NoTrue m) :
    NoTrue (addPoint m p false) := by
  intro e he
  simp only [addPoint, deleteKey, List.mem_cons, List.mem_filter] at he
  rcases he with rfl | ⟨he, -⟩
  · rfl
  · exact h e he

theorem getPoint_of_NoTrue (m : JsMap Bool) (p : Point) (h : NoTrue m) :
    (getPoint m p).getD false = false := by
  unfold getPoint
  cases hf : m.find? (fun e => e.1 == hash p) with
  | none => rfl
  | some e =>
    have := h e (List.mem_of_find?_eq_some hf)
    simpa using this

theorem isPathFrom_goal (b : Board) (h : isSafe b (goal b).x (goal b).y = true) :
    isPathFrom b (goal b) [goal b] := by
  refine ⟨rfl, rfl, List.chain'_singleton _, ?_⟩
  intro p hp
  rw [List.mem_singleton] at hp
  subst hp
  exact h

theorem isPathFrom_cons (b : Board) (p q : Point) (l : List Point)
    (hs : isSafe b p.x p.y = true) (ha : adjacent p q) (hl : isPathFrom b q l) :
    isPathFrom b p (p :: l) := by
  obtain ⟨h1, h2, h3, h4⟩ := hl
  cases l with
  | nil => cases h1
  | cons a l =>
    simp only [List.head?_cons, Option.some.injEq] at h1
    subst h1
    refine ⟨rfl, ?_, List.Chain'.cons ha h3, ?_⟩
    · rw [List.getLast?_cons_cons]; exact h2
    · intro r hr
      rcases List.mem_cons.mp hr with rfl | hr
      · exact hs
      · exact h4 r hr

theorem adjacent_neighbours (x y : Int) :
    ∀ sp ∈ ([⟨x + 1, y⟩, ⟨x, y + 1⟩, ⟨x - 1, y⟩, ⟨x, y - 1⟩] : List Point),
      adjacent ⟨x, y⟩ sp := by
  intro sp hsp
  simp only [List.mem_cons, List.mem_singleton, List.not_mem_nil, or_false] at hsp
  rcases hsp with rfl | rfl | rfl | rfl
  · right; simp
  · left; simp
  · right; simp
  · left; simp

theorem visit_sound (b : Board) (rec : Int → Int → State → Option (Bool × State))
    (point : Point)
    (hpre : ∀ x y s v t, rec x y s = some (v, t) → s.sol <+: t.sol)
    (hrec : ∀ x y s v t, NoTrue s.memo → rec x y s = some (v, t) →
      (v = false → NoTrue t.memo) ∧
      (v = true → t.sol.getLast? = some (goal b) ∧ (s.sol ++ [⟨x, y⟩]) <+: t.sol ∧
        ∃ l, isPathFrom b ⟨x, y⟩ l)) :
    ∀ pts s v t, NoTrue s.memo → visit rec point pts s = some (v, t) →
      (v = false → NoTrue t.memo) ∧
      (v = true → t.sol.getLast? = some (goal b) ∧ s.sol <+: t.sol ∧
        ∃ sp l, sp ∈ pts ∧ isPathFrom b sp l) := by
  intro pts
  induction pts with
  | nil =>
    intro s v t hs h
    rw [visit_nil] at h
    simp only [Option.some.injEq, Prod.mk.injEq] at h
    obtain ⟨rfl, rfl⟩ := h
    exact ⟨fun _ => NoTrue_addPoint_false _ _ hs, fun h => by cases h⟩
  | cons sp rest ih =>
    intro s v t hs h
    rcases visit_cons_cases rec point sp rest s with
      ⟨-, he⟩ | ⟨-, -, he⟩ | ⟨u, -, hr, he⟩ | ⟨u, -, hr, he⟩
    · rw [he, getPoint_of_NoTrue _ _ hs] at h
      simp only [Option.some.injEq, Prod.mk.injEq] at h
      obtain ⟨rfl, rfl⟩ := h
      exact ⟨fun _ => hs, fun h => by cases h⟩
    · rw [he] at h; cases h
    · rw [he] at h
      simp only [Option.some.injEq, Prod.mk.injEq] at h
      obtain ⟨rfl, rfl⟩ := h
      obtain ⟨hlast, hp, l, hl⟩ := (hrec _ _ _ _ _ hs hr).2 rfl
      refine ⟨(fun h => by cases h), fun _ => ⟨hlast, ?_, sp, l, List.mem_cons_self _ _, hl⟩⟩
      exact (List.prefix_append _ _).trans hp
    · rw [he] at h
      have hu := (hrec _ _ _ _ _ hs hr).1 rfl
      obtain ⟨h1, h2⟩ := ih u v t hu h
      refine ⟨h1, fun hv => ?_⟩
      obtain ⟨hlast, hp, q, l, hq, hl⟩ := h2 hv
      exact ⟨hlast, (hpre _ _ _ _ _ hr).trans hp, q, l, List.mem_cons_of_mem _ hq, hl⟩

theorem solveMazeUtil_sound (b : Board) :
    ∀ fuel x y s v t, NoTrue s.memo → solveMazeUtil b fuel x y s = some (v, t) →
      (v = false → NoTrue t.memo) ∧
      (v = true → t.sol.getLast? = some (goal b) ∧ (s.sol ++ [⟨x, y⟩]) <+: t.sol ∧
        ∃ l, isPathFrom b ⟨x, y⟩ l) := by
  intro fuel
  induction fuel with
  | zero => intro x y s v t _ h; cases h
  | succ fuel ih =>
    intro x y s v t hs h
    rcases solveMazeUtil_cases b fuel x y s with
      ⟨-, he⟩ | ⟨-, h2, -, hg, he⟩ | ⟨-, h2, -, -, he⟩
    · rw [he] at h
      simp only [Option.some.injEq, Prod.mk.injEq] at h
      obtain ⟨rfl, rfl⟩ := h
      exact ⟨fun _ => hs, fun h => by cases h⟩
    · rw [he] at h
      simp only [Option.some.injEq, Prod.mk.injEq] at h
      obtain ⟨rfl, rfl⟩ := h
      refine ⟨(fun h => by cases h), fun _ => ⟨?_, List.prefix_refl _, [goal b], ?_⟩⟩
      · simp [addPosition, hg]
      · rw [hg]
        apply isPathFrom_goal
        rw [← hg]
        exact h2
    · rw [he] at h
      obtain ⟨h1, h3⟩ := visit_sound b (solveMazeUtil b fuel) ⟨x, y⟩
        (solveMazeUtil_extends b fuel) ih _
        (addPosition { s with pathSoFar := addPoint s.pathSoFar ⟨x, y⟩ ⟨x, y⟩ } x y) _ _ hs h
      refine ⟨h1, fun hv => ?_⟩
      obtain ⟨hlast, hp, sp, l, hsp, hl⟩ := h3 hv
      refine ⟨hlast, ?_, ⟨x, y⟩ :: l, ?_⟩
      · simpa [addPosition] using hp
      · exact isPathFrom_cons b ⟨x, y⟩ sp l h2 (adjacent_neighbours x y sp hsp) hl

/-! ## No coordinate is pushed twice -/

theorem Tracked_exhaust (s : State) (p : Point) (k : String) (h : Tracked s k) :
    Tracked ⟨s.sol.dropLast, s.stack.dropLast, removePoint s.pathSoFar p,
      addPoint s.memo p false⟩ k := by
  rcases h with h | h
  · by_cases hk : k = hash p
    · exact Or.inr ((hasOwnProperty_addPoint _ _ _ _).mpr (Or.inl hk))
    · exact Or.inl ((hasOwnProperty_removePoint _ _ _).mpr ⟨hk, h⟩)
  · exact Or.inr ((hasOwnProperty_addPoint _ _ _ _).mpr (Or.inr h))

theorem Tracked_enter (s : State) (x y : Int) (k : String) (h : Tracked s k) :
    Tracked (addPosition { s with pathSoFar := addPoint s.pathSoFar ⟨x, y⟩ ⟨x, y⟩ } x y) k := by
  rcases h with h | h
  · exact Or.inl ((hasOwnProperty_addPoint _ _ _ _).mpr (Or.inr h))
  · exact Or.inr h

theorem not_mem_sol_of_untracked (s : State) (p : Point) (hs : Inv s)
    (h1 : containsPoint s.pathSoFar p = false) (h2 : containsPoint s.memo p = false) :
    p ∉ s.sol := by
  intro hp
  rcases hs.2 p hp with h | h
  · rw [containsPoint] at h1; rw [h1] at h; cases h
  · rw [containsPoint] at h2; rw [h2] at h; cases h

theorem visit_nodup (rec : Int → Int → State → Option (Bool × State)) (point : Point)
    (hrec : ∀ x y s v t, Inv s → containsPoint s.memo ⟨x, y⟩ = false →
      rec x y s = some (v, t) →
      t.sol.Nodup ∧ (v = false → Inv t ∧ ∀ k, Tracked s k → Tracked t k)) :
    ∀ pts s v t, Inv s → visit rec point pts s = some (v, t) →
      t.sol.Nodup ∧ (v = false → Inv t ∧ ∀ k, Tracked s k → Tracked t k) := by
  intro pts
  induction pts with
  | nil =>
    intro s v t hs h
    rw [visit_nil] at h
    simp only [Option.some.injEq, Prod.mk.injEq] at h
    obtain ⟨-, rfl⟩ := h
    have hnd : s.sol.dropLast.Nodup := hs.1.sublist (List.dropLast_sublist _)
    refine ⟨hnd, fun _ => ⟨⟨hnd, ?_⟩, fun k hk => Tracked_exhaust s point k hk⟩⟩
    intro p hp
    exact Tracked_exhaust s point _ (hs.2 p ((List.dropLast_sublist _).subset hp))
  | cons sp rest ih =>
    intro s v t hs h
    rcases visit_cons_cases rec point sp rest s with
      ⟨-, he⟩ | ⟨-, -, he⟩ | ⟨u, hc, hr, he⟩ | ⟨u, hc, hr, he⟩
    · rw [he] at h
      simp only [Option.some.injEq, Prod.mk.injEq] at h
      obtain ⟨-, rfl⟩ := h
      exact ⟨hs.1, fun _ => ⟨hs, fun _ hk => hk⟩⟩
    · rw [he] at h; cases h
    · rw [he] at h
      simp only [Option.some.injEq, Prod.mk.injEq] at h
      obtain ⟨rfl, rfl⟩ := h
      exact ⟨(hrec _ _ _ true u hs hc hr).1, fun h => by cases h⟩
    · rw [he] at h
      obtain ⟨hu, hm⟩ := (hrec _ _ _ false u hs hc hr).2 rfl
      obtain ⟨h1, h2⟩ := ih u v t hu h
      refine ⟨h1, fun hv => ?_⟩
      obtain ⟨h3, h4⟩ := h2 hv
      exact ⟨h3, fun k hk => h4 k (hm k hk)⟩

theorem solveMazeUtil_nodup (b : Board) :
    ∀ fuel x y s v t, Inv s → containsPoint s.memo ⟨x, y⟩ = false →
      solveMazeUtil b fuel x y s = some (v, t) →
      t.sol.Nodup ∧ (v = false → Inv t ∧ ∀ k, Tracked s k → Tracked t k) := by
  intro fuel
  induction fuel with
  | zero => intro x y s v t _ _ h; cases h
  | succ fuel ih =>
    intro x y s v t hs hm h
    rcases solveMazeUtil_cases b fuel x y s with
      ⟨-, he⟩ | ⟨-, -, h3, -, he⟩ | ⟨-, -, h3, -, he⟩
    · rw [he] at h
      simp only [Option.some.injEq, Prod.mk.injEq] at h
      obtain ⟨-, rfl⟩ := h
      exact ⟨hs.1, fun _ => ⟨hs, fun _ hk => hk⟩⟩
    · rw [he] at h
      simp only [Option.some.injEq, Prod.mk.injEq] at h
      obtain ⟨rfl, rfl⟩ := h
      refine ⟨?_, fun h => by cases h⟩
      have hn := not_mem_sol_of_untracked s ⟨x, y⟩ hs h3 hm
      simpa [addPosition, List.nodup_append, hs.1] using hn
    · rw [he] at h
      have hn := not_mem_sol_of_untracked s ⟨x, y⟩ hs h3 hm
      have hinv : Inv (addPosition
          { s with pathSoFar := addPoint s.pathSoFar ⟨x, y⟩ ⟨x, y⟩ } x y) := by
        constructor
        · simpa [addPosition, List.nodup_append, hs.1] using hn
        · intro p hp
          simp only [addPosition, List.mem_append, List.mem_singleton] at hp
          rcases hp with hp | rfl
          · exact Tracked_enter s x y _ (hs.2 p hp)
          · exact Or.inl ((hasOwnProperty_addPoint _ _ _ _).mpr (Or.inl rfl))
      obtain ⟨h1, h2⟩ := visit_nodup (solveMazeUtil b fuel) ⟨x, y⟩ ih _ _ _ _ hinv h
      refine ⟨h1, fun hv => ?_⟩
      obtain ⟨h4, h5⟩ := h2 hv
      exact ⟨h4, fun k hk => h5 k (Tracked_enter s x y k hk)⟩

/-! ## Runs on the example boards -/

theorem toString_neg_one : toString (-1 : Int) = "-1" := by decide

theorem toString_zero : toString (0 : Int) = "0" := by decide

theorem toString_one : toString (1 : Int) = "1" := by decide

theorem toString_two : toString (2 : Int) = "2" := by decide

theorem toString_three : toString (3 : Int) = "3" := by decide

theorem toString_four : toString (4 : Int) = "4" := by decide

theorem toString_five : toString (5 : Int) = "5" := by decide

theorem toString_six : toString (6 : Int) = "6" := by decide

theorem solve_board1x1_eq :
    solve board1x1 = some (true, ⟨[⟨0, 0⟩], [⟨0, 0⟩], [], []⟩) := by
  simp [solve, solveMaze, solveMazeUtil_succ, visit, outOfBounds, isSafe, cell, containsPoint,
    hasOwnProperty, addPoint, removePoint, deleteKey, getPoint, addPosition, removePosition,
    hash, board1x1, toString_neg_one, toString_zero, toString_one]

theorem solveMaze_again_board1x1_eq :
    solveMaze board1x1 [⟨0, 0⟩] [⟨0, 0⟩] =
      some (true, ⟨[⟨0, 0⟩, ⟨0, 0⟩], [⟨0, 0⟩, ⟨0, 0⟩], [], []⟩) := by
  simp [solveMaze, solveMazeUtil_succ, visit, outOfBounds, isSafe, cell, containsPoint,
    hasOwnProperty, addPoint, removePoint, deleteKey, getPoint, addPosition, removePosition,
    hash, board1x1, toString_neg_one, toString_zero, toString_one]

theorem solve_board1x1Blocked_eq :
    solve board1x1Blocked = some (false, ⟨[], [], [], []⟩) := by
  simp [solve, solveMaze, solveMazeUtil_succ, visit, outOfBounds, isSafe, cell, containsPoint,
    hasOwnProperty, addPoint, removePoint, deleteKey, getPoint, addPosition, removePosition,
    hash, board1x1Blocked, toString_neg_one, toString_zero, toString_one]

theorem solve_board2x2_eq : solve board2x2 = some (true, final2x2) := by
  simp [final2x2, solve, solveMaze, solveMazeUtil_succ, visit, outOfBounds, isSafe, cell, containsPoint,
    hasOwnProperty, addPoint, removePoint, deleteKey, getPoint, addPosition, removePosition,
    hash, board2x2, toString_neg_one, toString_zero, toString_one, toString_two]

theorem solve_board2x3_eq :
    (solve board2x3).map (fun r => (r.1, r.2.sol)) = some (false, [⟨0, 0⟩]) := by
  simp [solve, solveMaze, solveMazeUtil_succ, visit, outOfBounds, isSafe, cell, containsPoint,
    hasOwnProperty, addPoint, removePoint, deleteKey, getPoint, addPosition, removePosition,
    hash, board2x3, toString_neg_one, toString_zero, toString_one, toString_two,
    toString_three]

theorem solve_board3x3_eq :
    (solve board3x3).map (fun r => (r.1, r.2.sol)) =
      some (true, [⟨0, 0⟩, ⟨1, 0⟩, ⟨2, 0⟩, ⟨2, 1⟩, ⟨2, 2⟩]) := by
  simp [solve, solveMaze, solveMazeUtil_succ, visit, outOfBounds, isSafe, cell, containsPoint,
    hasOwnProperty, addPoint, removePoint, deleteKey, getPoint, addPosition, removePosition,
    hash, board3x3, toString_neg_one, toString_zero, toString_one, toString_two,
    toString_three]

set_option maxRecDepth 100000 in
set_option maxHeartbeats 4000000 in
theorem solve_board4x4_eq :
    (solve board4x4).map (fun r => (r.1, r.2.sol)) =
      some (true, [⟨0, 0⟩, ⟨1, 0⟩, ⟨0, 1⟩, ⟨0, 2⟩, ⟨0, 3⟩, ⟨1, 3⟩, ⟨2, 3⟩, ⟨3, 3⟩]) := by
  simp [solve, solveMaze, solveMazeUtil_succ, visit, outOfBounds, isSafe, cell, containsPoint,
    hasOwnProperty, addPoint, removePoint, deleteKey, getPoint, addPosition, removePosition,
    hash, board4x4, toString_neg_one, toString_zero, toString_one, toString_two,
    toString_three, toString_four]

set_option maxRecDepth 100000 in
set_option maxHeartbeats 4000000 in
theorem solve_board4x6_eq :
    (solve board4x6).map (fun r => (r.1, r.2.sol)) = some (false, [⟨0, 0⟩]) := by
  simp [solve, solveMaze, solveMazeUtil_succ, visit, outOfBounds, isSafe, cell, containsPoint,
    hasOwnProperty, addPoint, removePoint, deleteKey, getPoint, addPosition, removePosition,
    hash, board4x6, toString_neg_one, toString_zero, toString_one, toString_two,
    toString_three, toString_four, toString_five, toString_six]

theorem isPathFrom_path4x6 : isPathFrom board4x6 ⟨0, 0⟩ path4x6 :=
  ⟨by decide, by decide,
    by simp only [path4x6, List.chain'_cons, List.chain'_singleton, and_true]; decide,
    by decide⟩

theorem not_hasPath_of_goal_blocked (b : Board)
    (h : isSafe b (goal b).x (goal b).y = false) : ¬ hasPath b := by
  rintro ⟨l, -, h2, -, h4⟩
  have := h4 (goal b) (List.mem_of_mem_getLast? h2)
  rw [h] at this
  cases this

theorem run_of_map_eq (o : Option (Bool × State)) (v : Bool) (l : List Point)
    (h : o.map (fun r => (r.1, r.2.sol)) = some (v, l)) :
    ∃ s, o = some (v, s) ∧ s.sol = l := by
  cases o with
  | none => cases h
  | some r =>
    obtain ⟨w, s⟩ := r
    simp only [Option.map_some', Option.some.injEq, Prod.mk.injEq] at h
    obtain ⟨rfl, rfl⟩ := h
    exact ⟨s, rfl, rfl⟩

theorem Inv_start : Inv ⟨[], [], [], []⟩ :=
  ⟨List.nodup_nil, fun _ hp => by cases hp⟩

/-! ## Only valid cells are pushed -/

theorem isSafe_iff (b : Board) (x y : Int) : isSafe b x y = true ↔ OnBoard b ⟨x, y⟩ := by
  unfold isSafe OnBoard
  by_cases hx0 : 0 ≤ x <;> by_cases hx1 : x < (b.HEIGHT : Int) <;>
    by_cases hy0 : 0 ≤ y <;> by_cases hy1 : y < (b.WIDTH : Int) <;>
    simp [hx0, hx1, hy0, hy1]

theorem Valid_start (b : Board) : Valid b ⟨[], [], [], []⟩ :=
  ⟨(fun _ hp => by cases hp), (fun _ he => by cases he)⟩

theorem Valid_enter (b : Board) (s : State) (x y : Int) (hs : Valid b s)
    (h : isSafe b x y = true) :
    Valid b (addPosition { s with pathSoFar := addPoint s.pathSoFar ⟨x, y⟩ ⟨x, y⟩ } x y) := by
  have hp := (isSafe_iff b x y).mp h
  constructor
  · intro p hmem
    simp only [addPosition, List.mem_append, List.mem_singleton] at hmem
    rcases hmem with hmem | rfl
    · exact hs.1 p hmem
    · exact hp
  · intro e he
    simp only [addPosition, addPoint, deleteKey, List.mem_cons, List.mem_filter] at he
    rcases he with rfl | ⟨he, -⟩
    · exact ⟨rfl, hp⟩
    · exact hs.2 e he

theorem visit_valid (b : Board) (rec : Int → Int → State → Option (Bool × State))
    (point : Point)
    (hrec : ∀ x y s v t, Valid b s → rec x y s = some (v, t) → Valid b t) :
    ∀ pts s v t, Valid b s → visit rec point pts s = some (v, t) → Valid b t := by
  intro pts
  induction pts with
  | nil =>
    intro s v t hs h
    rw [visit_nil] at h
    simp only [Option.some.injEq, Prod.mk.injEq] at h
    obtain ⟨-, rfl⟩ := h
    constructor
    · intro p hp
      exact hs.1 p ((List.dropLast_sublist _).subset hp)
    · intro e he
      simp only [removePoint, deleteKey, List.mem_filter] at he
      exact hs.2 e he.1
  | cons sp rest ih =>
    intro s v t hs h
    rcases visit_cons_cases rec point sp rest s with
      ⟨-, he⟩ | ⟨-, -, he⟩ | ⟨u, -, hr, he⟩ | ⟨u, -, hr, he⟩
    · rw [he] at h
      simp only [Option.some.injEq, Prod.mk.injEq] at h
      obtain ⟨-, rfl⟩ := h
      exact hs
    · rw [he] at h; cases h
    · rw [he] at h
      simp only [Option.some.injEq, Prod.mk.injEq] at h
      obtain ⟨-, rfl⟩ := h
      exact hrec _ _ _ true u hs hr
    · rw [he] at h
      exact ih u v t (hrec _ _ _ false u hs hr) h

theorem solveMazeUtil_valid (b : Board) :
    ∀ fuel x y s v t, Valid b s → solveMazeUtil b fuel x y s = some (v, t) → Valid b t := by
  intro fuel
  induction fuel with
  | zero => intro x y s v t _ h; cases h
  | succ fuel ih =>
    intro x y s v t hs h
    rcases solveMazeUtil_cases b fuel x y s with
      ⟨-, he⟩ | ⟨-, h2, -, -, he⟩ | ⟨-, h2, -, -, he⟩
    · rw [he] at h
      simp only [Option.some.injEq, Prod.mk.injEq] at h
      obtain ⟨-, rfl⟩ := h
      exact hs
    · rw [he] at h
      simp only [Option.some.injEq, Prod.mk.injEq] at h
      obtain ⟨-, rfl⟩ := h
      constructor
      · intro p hmem
        simp only [addPosition, List.mem_append, List.mem_singleton] at hmem
        rcases hmem with hmem | rfl
        · exact hs.1 p hmem
        · exact (isSafe_iff b x y).mp h2
      · exact hs.2
    · rw [he] at h
      exact visit_valid b (solveMazeUtil b fuel) ⟨x, y⟩ ih _ _ _ _ (Valid_enter b s x y hs h2) h

/-! ## The memo only grows -/

theorem mem_addPoint_of_mem {V : Type} (m : JsMap V) (p : Point) (v : V) (e : String × V)
    (he : e ∈ m) (hk : e.1 ≠ hash p) : e ∈ addPoint m p v := by
  simp only [addPoint, deleteKey, List.mem_cons, List.mem_filter]
  exact Or.inr ⟨he, by simpa using hk⟩

theorem key_ne_of_not_contains {V : Type} (m : JsMap V) (p : Point) (e : String × V)
    (he : e ∈ m) (h : containsPoint m p = false) : e.1 ≠ hash p := by
  intro hk
  have : containsPoint m p = true := (hasOwnProperty_iff m (hash p)).mpr ⟨e, he, hk⟩
  rw [h] at this
  cases this

theorem MemoOk_nil (b : Board) : MemoOk b [] :=
  ⟨List.nodup_nil, fun _ he => by cases he⟩

theorem MemoOk_addPoint (b : Board) (m : JsMap Bool) (p : Point) (v : Bool)
    (hm : MemoOk b m) (hin : outOfBounds b p.x p.y = false) : MemoOk b (addPoint m p v) := by
  constructor
  · simp only [addPoint, deleteKey, List.map_cons, List.nodup_cons, List.mem_map,
      List.mem_filter, not_exists, not_and]
    constructor
    · rintro e ⟨-, he⟩ hk
      simp [hk] at he
    · exact hm.1.sublist ((List.filter_sublist _).map _)
  · intro e he
    simp only [addPoint, deleteKey, List.mem_cons, List.mem_filter] at he
    rcases he with rfl | ⟨he, -⟩
    · exact List.mem_map.mpr ⟨p, mem_cells b p.x p.y hin, rfl⟩
    · exact hm.2 e he

theorem MemoOk_length (b : Board) (m : JsMap Bool) (hm : MemoOk b m) :
    m.length ≤ b.WIDTH * b.HEIGHT := by
  have h1 : m.length = (m.map Prod.fst).toFinset.card := by
    rw [List.toFinset_card_of_nodup hm.1, List.length_map]
  have h2 : (m.map Prod.fst).toFinset ⊆ ((cells b).map hash).toFinset := by
    intro k hk
    rw [List.mem_toFinset] at hk ⊢
    obtain ⟨e, he, rfl⟩ := List.mem_map.mp hk
    exact hm.2 e he
  calc m.length = (m.map Prod.fst).toFinset.card := h1
    _ ≤ ((cells b).map hash).toFinset.card := Finset.card_le_card h2
    _ ≤ ((cells b).map hash).length := List.toFinset_card_le _
    _ = b.WIDTH * b.HEIGHT := by rw [List.length_map, cells_length, Nat.mul_comm]

theorem getPoint_eq_some_iff {V : Type} (m : JsMap V) (p : Point) (v : V)
    (hnd : (m.map Prod.fst).Nodup) : getPoint m p = some v ↔ (hash p, v) ∈ m := by
  unfold getPoint
  constructor
  · intro h
    cases hf : m.find? (fun e => e.1 == hash p) with
    | none => rw [hf] at h; cases h
    | some e =>
      rw [hf] at h
      simp only [Option.map_some', Option.some.injEq] at h
      have hk := List.find?_some hf
      simp only [beq_iff_eq] at hk
      have hmem := List.mem_of_find?_eq_some hf
      rw [← hk, ← h]
      exact hmem
  · intro h
    cases hf : m.find? (fun e => e.1 == hash p) with
    | none =>
      have := List.find?_eq_none.mp hf (hash p, v) h
      simp at this
    | some e =>
      have hk := List.find?_some hf
      simp only [beq_iff_eq] at hk
      have hmem := List.mem_of_find?_eq_some hf
      have : e = (hash p, v) := List.inj_on_of_nodup_map hnd hmem h hk
      rw [this]
      rfl

theorem visit_memo (b : Board) (rec : Int → Int → State → Option (Bool × State))
    (point : Point) (m0 : JsMap Bool)
    (hrec : ∀ x y s v t, MemoOk b s.memo → containsPoint s.memo ⟨x, y⟩ = false →
      rec x y s = some (v, t) →
      (∀ e ∈ s.memo, e ∈ t.memo) ∧ MemoOk b t.memo ∧ (v = true → outOfBounds b x y = false))
    (hin : outOfBounds b point.x point.y = false)
    (h0 : containsPoint m0 point = false) :
    ∀ pts s v t, MemoOk b s.memo → (∀ e ∈ m0, e ∈ s.memo) →
      visit rec point pts s = some (v, t) →
      (∀ e ∈ m0, e ∈ t.memo) ∧ MemoOk b t.memo := by
  intro pts
  induction pts with
  | nil =>
    intro s v t hs hm h
    rw [visit_nil] at h
    simp only [Option.some.injEq, Prod.mk.injEq] at h
    obtain ⟨-, rfl⟩ := h
    refine ⟨fun e he => ?_, MemoOk_addPoint b _ point false hs hin⟩
    exact mem_addPoint_of_mem _ _ _ e (hm e he) (key_ne_of_not_contains m0 point e he h0)
  | cons sp rest ih =>
    intro s v t hs hm h
    rcases visit_cons_cases rec point sp rest s with
      ⟨-, he⟩ | ⟨-, -, he⟩ | ⟨u, hc, hr, he⟩ | ⟨u, hc, hr, he⟩
    · rw [he] at h
      simp only [Option.some.injEq, Prod.mk.injEq] at h
      obtain ⟨-, rfl⟩ := h
      exact ⟨hm, hs⟩
    · rw [he] at h; cases h
    · rw [he] at h
      simp only [Option.some.injEq, Prod.mk.injEq] at h
      obtain ⟨-, rfl⟩ := h
      obtain ⟨h1, h2, h3⟩ := hrec _ _ _ true u hs hc hr
      refine ⟨fun e he => ?_, MemoOk_addPoint b _ sp true h2 (h3 rfl)⟩
      exact mem_addPoint_of_mem _ _ _ e (h1 e (hm e he))
        (key_ne_of_not_contains s.memo sp e (hm e he) hc)
    · rw [he] at h
      obtain ⟨h1, h2, -⟩ := hrec _ _ _ false u hs hc hr
      exact ih u v t h2 (fun e he => h1 e (hm e he)) h

theorem solveMazeUtil_memo (b : Board) :
    ∀ fuel x y s v t, MemoOk b s.memo → containsPoint s.memo ⟨x, y⟩ = false →
      solveMazeUtil b fuel x y s = some (v, t) →
      (∀ e ∈ s.memo, e ∈ t.memo) ∧ MemoOk b t.memo ∧ (v = true → outOfBounds b x y = false) := by
  intro fuel
  induction fuel with
  | zero => intro x y s v t _ _ h; cases h
  | succ fuel ih =>
    intro x y s v t hs hk h
    rcases solveMazeUtil_cases b fuel x y s with
      ⟨-, he⟩ | ⟨h1, -, -, -, he⟩ | ⟨h1, -, -, -, he⟩
    · rw [he] at h
      simp only [Option.some.injEq, Prod.mk.injEq] at h
      obtain ⟨rfl, rfl⟩ := h
      exact ⟨fun _ he => he, hs, fun h => by cases h⟩
    · rw [he] at h
      simp only [Option.some.injEq, Prod.mk.injEq] at h
      obtain ⟨rfl, rfl⟩ := h
      exact ⟨fun _ he => he, hs, fun _ => h1⟩
    · rw [he] at h
      obtain ⟨h2, h3⟩ := visit_memo b (solveMazeUtil b fuel) ⟨x, y⟩ s.memo ih h1 hk _
        (addPosition { s with pathSoFar := addPoint s.pathSoFar ⟨x, y⟩ ⟨x, y⟩ } x y) v t
        hs (fun _ he => he) h
      exact ⟨h2, h3, fun _ => h1⟩

/-! ## Further runs on the example boards -/

theorem solve_board3x3Dead_eq : solve board3x3Dead = some (false, final3x3Dead) := by
  simp [final3x3Dead, solve, solveMaze, solveMazeUtil_succ, visit, outOfBounds, isSafe, cell,
    containsPoint, hasOwnProperty, addPoint, removePoint, deleteKey, getPoint, addPosition,
    removePosition, hash, board3x3Dead, toString_neg_one, toString_zero, toString_one,
    toString_two, toString_three]

theorem loopState_board2x2Corner_eq :
    loopState (solveMazeUtil board2x2Corner 4) [⟨1, 0⟩]
      ⟨[⟨0, 0⟩], [⟨0, 0⟩], [("00", ⟨0, 0⟩)], []⟩ = some mid2x2 := by
  simp [mid2x2, loopState, solveMazeUtil_succ, visit, outOfBounds, isSafe, cell,
    containsPoint, hasOwnProperty, addPoint, removePoint, deleteKey, getPoint, addPosition,
    removePosition, hash, board2x2Corner, toString_neg_one, toString_zero, toString_one,
    toString_two]

/-- The call on `(0,1)` in the state `mid2x2` is made in the search on
`board2x2Corner`: it is the second candidate of the first call. -/
theorem InSearch_mid2x2 : InSearch board2x2Corner 4 0 1 mid2x2 :=
  InSearch.inner 4 0 0 ⟨[], [], [], []⟩ [⟨1, 0⟩] ⟨0, 1⟩ [⟨-1, 0⟩, ⟨0, -1⟩] mid2x2
    (InSearch.first [] []) (by decide) (by decide) (by decide) (by decide) (by decide)
    loopState_board2x2Corner_eq (by decide)

/-! ## The calls made in a search -/

theorem loopState_inv (b : Board) (fuel : Nat) :
    ∀ tried s u, MemoOk b s.memo → free b s.pathSoFar < fuel →
      loopState (solveMazeUtil b fuel) tried s = some u →
      MemoOk b u.memo ∧ free b u.pathSoFar < fuel := by
  intro tried
  induction tried with
  | nil =>
    intro s u hm hf h
    simp only [loopState, Option.some.injEq] at h
    subst h
    exact ⟨hm, hf⟩
  | cons sp tried ih =>
    intro s u hm hf h
    cases hc : containsPoint s.memo sp with
    | true => simp [loopState, hc] at h
    | false =>
      obtain ⟨v, t, hr, hk⟩ := solveMazeUtil_terminates b fuel sp.x sp.y s hf
      cases v with
      | true => simp [loopState, hc, hr] at h
      | false =>
        simp only [loopState, hc, hr] at h
        exact ih t u (solveMazeUtil_memo b fuel sp.x sp.y s false t hm hc hr).2.1
          (lt_of_le_of_lt (free_mono b _ _ hk) hf) (by simpa using h)

/-- The state of `loopState` is the state in which the loop of `solveMazeUtil`
goes on with the candidates that follow those tried. -/
theorem visit_loopState (rec : Int → Int → State → Option (Bool × State)) (point : Point)
    (rest : List Point) :
    ∀ tried s u, loopState rec tried s = some u →
      visit rec point (tried ++ rest) s = visit rec point rest u := by
  intro tried
  induction tried with
  | nil =>
    intro s u h
    simp only [loopState, Option.some.injEq] at h
    subst h
    rfl
  | cons sp tried ih =>
    intro s u h
    cases hc : containsPoint s.memo sp with
    | true => simp [loopState, hc] at h
    | false =>
      cases hr : rec sp.x sp.y s with
      | none => simp [loopState, hc, hr] at h
      | some r =>
        obtain ⟨v, t⟩ := r
        cases v with
        | true => simp [loopState, hc, hr] at h
        | false =>
          simp only [loopState, hc, hr] at h
          rw [List.cons_append, visit_cons_false rec point sp _ s t hc hr]
          exact ih t u (by simpa using h)

/-- At every call made in a search the keys of the memo are distinct keys of
cells, the memo does not hold the key of the coordinate called, and the depth
still allowed exceeds the number of keys of cells that the path-so-far map does
not hold. -/
theorem InSearch_inv (b : Board) (fuel : Nat) (x y : Int) (s : State)
    (h : InSearch b fuel x y s) :
    MemoOk b s.memo ∧ containsPoint s.memo ⟨x, y⟩ = false ∧ free b s.pathSoFar < fuel := by
  induction h with
  | first sol stack => exact ⟨MemoOk_nil b, rfl, Nat.lt_succ_of_le (free_le b _)⟩
  | inner fuel x y s tried sp rest u _ h1 _ h3 _ _ hloop hc ih =>
    obtain ⟨ihm, -, ihf⟩ := ih
    have hf1 : free b (addPoint s.pathSoFar ⟨x, y⟩ ⟨x, y⟩) < fuel := by
      have := free_addPoint_lt b s.pathSoFar x y ⟨x, y⟩ h1 h3
      omega
    obtain ⟨hm, hf⟩ := loopState_inv b fuel tried
      (addPosition { s with pathSoFar := (addPoint s.pathSoFar ⟨x, y⟩ ⟨x, y⟩) } x y) u
      ihm hf1 hloop
    exact ⟨hm, hc, hf⟩

/-! ## The oracle client: retries -/

theorem isValid_busy (rest : List (Answer Unit)) :
    isValid (Answer.http 503 () :: rest) = (isValid rest).map (fun r => (r.1, r.2 + 1)) := by
  simp [isValid, axiosRequest, validateStatus]

theorem isValid_success (status : Nat) (rest : List (Answer Unit))
    (hs : 200 ≤ status ∧ status < 300) :
    isValid (Answer.http status () :: rest) = some (Except.ok (CheckResult.ok true), 1) := by
  simp [isValid, axiosRequest, validateStatus, hs.1, hs.2]

theorem isValid_forbidden (rest : List (Answer Unit)) :
    isValid (Answer.http 403 () :: rest) = some (Except.ok (CheckResult.ok false), 1) := by
  simp [isValid, axiosRequest, validateStatus]

/-! ## Board initialisation: the grid that the client builds -/

theorem set_at_length {α : Type} (pre : List α) (old v : α) (rest : List α) :
    (pre ++ old :: rest).set pre.length v = pre ++ v :: rest := by
  induction pre with
  | nil => rfl
  | cons a pre ih => simp [ih]

theorem getD_at_length {α : Type} (pre : List α) (old d : α) (rest : List α) :
    (pre ++ old :: rest).getD pre.length d = old := by
  induction pre with
  | nil => rfl
  | cons a pre ih => simpa using ih

theorem assign_at_length {α : Type} (pre : List α) (old v : α) (rest : List α) :
    assign (pre ++ old :: rest) pre.length v = pre ++ v :: rest := by
  unfold assign
  rw [if_pos (by simp), set_at_length]

theorem assign_at_end {α : Type} (arr : List α) (v : α) :
    assign arr arr.length v = arr ++ [v] := by
  unfold assign
  rw [if_neg (Nat.lt_irrefl _)]

/-- A loop over the indices `0 .. n-1` that rewrites the element at its index
rebuilds the first `n` elements of the array. -/
theorem foldl_rebuild {α : Type} (P : α → Prop) (F : Nat → α) (step : List α → Nat → List α)
    (hstep : ∀ (pre : List α) (old : α) (rest : List α) (i : Nat), pre.length = i → P old →
      step (pre ++ old :: rest) i = pre ++ F i :: rest) :
    ∀ n (l : List α), n ≤ l.length → (∀ e ∈ l, P e) →
      (List.range n).foldl step l = (List.range n).map F ++ l.drop n := by
  intro n
  induction n with
  | zero => intro l _ _; simp
  | succ n ih =>
    intro l hn hP
    have hlt : n < l.length := hn
    rw [List.range_succ, List.foldl_append, List.foldl_cons, List.foldl_nil,
      ih l (Nat.le_of_lt hlt) hP, List.drop_eq_getElem_cons hlt,
      hstep _ _ _ n (by simp) (hP _ (List.getElem_mem hlt))]
    simp

/-- A loop over the indices `0 .. n-1` that appends at its index builds an array
of `n` elements. -/
theorem foldl_assign_nil {α : Type} (c : α) :
    ∀ n, (List.range n).foldl (fun r (y : Nat) => assign r y c) [] = List.replicate n c := by
  intro n
  induction n with
  | zero => rfl
  | succ n ih =>
    rw [List.range_succ, List.foldl_append, List.foldl_cons, List.foldl_nil, ih]
    have h := assign_at_end (List.replicate n c) c
    rw [List.length_replicate] at h
    rw [h, List.replicate_succ']

theorem set_getElem_own {α : Type} :
    ∀ (l : List α) (i : Nat) (h : i < l.length), l.set i (l.get ⟨i, h⟩) = l := by
  intro l
  induction l with
  | nil => intro i h; cases h
  | cons a l ih =>
    intro i h
    cases i with
    | zero => rfl
    | succ i => simp only [List.set_cons_succ, List.get_cons_succ]; rw [ih]

theorem foldl_assign2 {α : Type} (x : Nat) (f : Nat → α) :
    ∀ (ys : List Nat) (data : List (List α)), x < data.length →
      ys.foldl (fun d y => assign2 d x y (f y)) data =
        data.set x (ys.foldl (fun r y => assign r y (f y)) (data.getD x [])) := by
  intro ys
  induction ys with
  | nil =>
    intro data hx
    simp only [List.foldl_nil]
    rw [List.getD_eq_getElem _ _ hx]
    exact (set_getElem_own data x hx).symm
  | cons y ys ih =>
    intro data hx
    simp only [List.foldl_cons]
    rw [ih (assign2 data x y (f y)) (by simpa [assign2] using hx)]
    simp only [assign2, List.set_set]
    congr 2
    rw [List.getD_eq_getElem _ _ (by simpa using hx), List.getElem_set_self]

theorem foldl_assign_row {α : Type} (f : Nat → α) (row : List α) :
    (List.range row.length).foldl (fun r y => assign r y (f y)) row =
      (List.range row.length).map f := by
  have h := foldl_rebuild (fun _ => True) f (fun r y => assign r y (f y))
    (fun pre old rest i hi _ => by subst hi; exact assign_at_length pre old (f pre.length) rest)
    row.length row (Nat.le_refl _) (fun _ _ => trivial)
  rw [h, List.drop_length, List.append_nil]

theorem initArray_nil (width height : Nat) :
    initArray [] width height = List.replicate height (List.replicate width 0) := by
  unfold initArray
  induction height with
  | zero => rfl
  | succ n ih =>
    rw [List.range_succ, List.foldl_append, List.foldl_cons, List.foldl_nil, ih]
    have h1 := assign_at_end (List.replicate n (List.replicate width 0)) ([] : List Nat)
    rw [List.length_replicate] at h1
    rw [h1, foldl_assign2 n (fun _ => 0) _ _ (by simp)]
    have h2 := getD_at_length (List.replicate n (List.replicate width 0)) ([] : List Nat) [] []
    have h3 := set_at_length (List.replicate n (List.replicate width 0)) ([] : List Nat)
      (List.replicate width 0) []
    rw [List.length_replicate] at h2 h3
    rw [h2, foldl_assign_nil, h3, List.replicate_succ']

theorem checkCells_cellOracle (valid : Nat → Nat → Bool) (x : Nat) :
    ∀ (ys : List Nat) (data : List (List Nat)),
      checkCells (cellOracle valid) x ys data =
        some (Except.ok
          (ys.foldl (fun d y => assign2 d x y (if valid x y then 1 else 0)) data)) := by
  intro ys
  induction ys with
  | nil => intro data; rfl
  | cons y ys ih =>
    intro data
    cases hv : valid x y with
    | true =>
      have h : isValid (cellOracle valid x y) = some (Except.ok (CheckResult.ok true), 1) := by
        simp only [cellOracle, hv, if_true]
        exact isValid_success 200 [] (by decide)
      simp only [checkCells, h, List.foldl_cons, hv]
      exact ih _
    | false =>
      have h : isValid (cellOracle valid x y) = some (Except.ok (CheckResult.ok false), 1) := by
        simp only [cellOracle, hv]
        exact isValid_forbidden []
      simp only [checkCells, h, List.foldl_cons, hv]
      exact ih _

theorem checkRows_cellOracle (valid : Nat → Nat → Bool) (width : Nat) :
    ∀ (xs : List Nat) (data : List (List Nat)),
      checkRows (cellOracle valid) width xs data =
        some (Except.ok
          (xs.foldl
            (fun d x =>
              (List.range width).foldl
                (fun d y => assign2 d x y (if valid x y then 1 else 0)) d) data)) := by
  intro xs
  induction xs with
  | nil => intro data; rfl
  | cons x xs ih =>
    intro data
    simp only [checkRows, checkCells_cellOracle, List.foldl_cons]
    exact ih _

theorem foldl_rows_eq_gridOf (valid : Nat → Nat → Bool) (width : Nat) (data : List (List Nat))
    (hrows : ∀ row ∈ data, row.length = width) :
    (List.range data.length).foldl
        (fun d x =>
          (List.range width).foldl (fun d y => assign2 d x y (if valid x y then 1 else 0)) d)
        data =
      gridOf valid width data.length := by
  have h := foldl_rebuild (fun (row : List Nat) => row.length = width)
    (fun (x : Nat) => (List.range width).map (fun (y : Nat) => if valid x y then 1 else 0))
    (fun d x =>
      (List.range width).foldl (fun d y => assign2 d x y (if valid x y then 1 else 0)) d)
    (fun pre old rest i hi hold => by
      subst hi
      subst hold
      beta_reduce
      rw [foldl_assign2 pre.length (fun y => if valid pre.length y then 1 else 0) _ _ (by simp),
        getD_at_length, foldl_assign_row, set_at_length])
    data.length data (Nat.le_refl _) hrows
  rw [h, List.drop_length, List.append_nil]
  rfl

theorem getValidBoardMoves_eq (data : MazeData) (valid : Nat → Nat → Bool) :
    getValidBoardMoves (initMazeProps emptyMaze data) (cellOracle valid) =
      some (Except.ok ⟨data.height, data.width, gridOf valid data.width data.height⟩) := by
  unfold getValidBoardMoves
  simp only [initMazeProps, emptyMaze, initArray_nil, checkRows_cellOracle]
  have h := foldl_rows_eq_gridOf valid data.width
    (List.replicate data.height (List.replicate data.width 0))
    (fun row hrow => by rw [List.eq_of_mem_replicate hrow, List.length_replicate])
  rw [List.length_replicate] at h
  rw [h]

theorem gridOf_length (valid : Nat → Nat → Bool) (width height : Nat) :
    (gridOf valid width height).length = height := by
  simp [gridOf]

theorem gridOf_row_length (valid : Nat → Nat → Bool) (width height : Nat) :
    ∀ row ∈ gridOf valid width height, row.length = width := by
  intro row hrow
  simp only [gridOf, List.mem_map, List.mem_range] at hrow
  obtain ⟨x, -, rfl⟩ := hrow
  simp

theorem cell_gridOf (valid : Nat → Nat → Bool) (width height x y : Nat)
    (hx : x < height) (hy : y < width) :
    cell ⟨height, width, gridOf valid width height⟩ (x : Int) (y : Int) =
      some (if valid x y then 1 else 0) := by
  simp [cell, gridOf, List.getD_eq_getElem?_getD, hx, hy]

/-! ## Keys of coordinates: decimal strings -/

theorem digitValue_digitChar (k : Nat) (hk : k < 10) : digitValue (Nat.digitChar k) = k := by
  interval_cases k <;> rfl

theorem decodeFrom_toDigitsCore :
    ∀ fuel n ds, n < fuel →
      decodeFrom 0 (Nat.toDigitsCore 10 fuel n ds) = decodeFrom n ds := by
  intro fuel
  induction fuel with
  | zero => intro n ds h; cases h
  | succ fuel ih =>
    intro n ds h
    simp only [Nat.toDigitsCore]
    split
    · rename_i h0
      have hlt : n < 10 := by omega
      simp only [decodeFrom, List.foldl_cons, Nat.mul_zero, Nat.zero_add]
      rw [digitValue_digitChar _ (Nat.mod_lt _ (by decide)), Nat.mod_eq_of_lt hlt]
    · rename_i h0
      rw [ih (n / 10) _ (by omega)]
      simp only [decodeFrom, List.foldl_cons]
      rw [digitValue_digitChar _ (Nat.mod_lt _ (by decide)), Nat.div_add_mod]

theorem decodeFrom_toDigits (n : Nat) : decodeFrom 0 (Nat.toDigits 10 n) = n := by
  unfold Nat.toDigits
  rw [decodeFrom_toDigitsCore _ _ _ (Nat.lt_succ_self n)]
  rfl

theorem toDigits_injective (a c : Nat) (h : Nat.toDigits 10 a = Nat.toDigits 10 c) : a = c := by
  rw [← decodeFrom_toDigits a, ← decodeFrom_toDigits c, h]

theorem length_toDigitsCore :
    ∀ fuel n ds, n < fuel →
      (Nat.toDigitsCore 10 fuel n ds).length = Nat.log 10 n + 1 + ds.length := by
  intro fuel
  induction fuel with
  | zero => intro n ds h; cases h
  | succ fuel ih =>
    intro n ds h
    simp only [Nat.toDigitsCore]
    split
    · rename_i h0
      have hlt : n < 10 := by omega
      rw [Nat.log_of_lt hlt]
      simp [Nat.add_comm]
    · rename_i h0
      have hge : 10 ≤ n := by omega
      rw [ih (n / 10) _ (by omega), Nat.log_of_one_lt_of_le (by decide) hge]
      simp only [List.length_cons]
      omega

theorem length_toDigits (n : Nat) : (Nat.toDigits 10 n).length = Nat.log 10 n + 1 := by
  unfold Nat.toDigits
  rw [length_toDigitsCore _ _ _ (Nat.lt_succ_self n)]
  rfl

theorem hash_natCast (i j : Nat) :
    hash ⟨(i : Int), (j : Int)⟩ = String.mk (Nat.toDigits 10 i ++ Nat.toDigits 10 j) := rfl

theorem hash_row_injective (i j k : Nat) (h : hash ⟨(i : Int), (j : Int)⟩ = hash ⟨(i : Int), (k : Int)⟩) :
    j = k := by
  rw [hash_natCast, hash_natCast] at h
  exact toDigits_injective _ _ (List.append_cancel_left (congrArg String.data h))

theorem hash_column_zero (i k j : Nat) (hik : i ≤ k)
    (h : hash ⟨(i : Int), 0⟩ = hash ⟨(k : Int), (j : Int)⟩) : i = k ∧ j = 0 := by
  have h0 : hash ⟨(i : Int), 0⟩ = hash ⟨(i : Int), ((0 : Nat) : Int)⟩ := rfl
  rw [h0, hash_natCast, hash_natCast] at h
  replace h : Nat.toDigits 10 i ++ Nat.toDigits 10 0 = Nat.toDigits 10 k ++ Nat.toDigits 10 j :=
    congrArg String.data h
  have hlen := congrArg List.length h
  simp only [List.length_append, length_toDigits] at hlen
  have hmono := Nat.log_mono_right (b := 10) hik
  have hl : (Nat.toDigits 10 i).length = (Nat.toDigits 10 k).length := by
    simp only [length_toDigits]
    simp at hlen
    omega
  obtain ⟨h1, h2⟩ := List.append_inj h hl
  exact ⟨toDigits_injective _ _ h1, (toDigits_injective _ _ h2).symm⟩

/-! ## The search on the fully valid board -/

theorem goal_fullBoard (h w : Nat) : goal (fullBoard (h + 1) (w + 1)) = ⟨(h : Int), (w : Int)⟩ := by
  simp [goal, fullBoard]

theorem outOfBounds_fullBoard (H W i j : Nat) (hi : i < H) (hj : j < W) :
    outOfBounds (fullBoard H W) (i : Int) (j : Int) = false := by
  simp [outOfBounds, fullBoard, hi, hj]

theorem isSafe_fullBoard (H W i j : Nat) (hi : i < H) (hj : j < W) :
    isSafe (fullBoard H W) (i : Int) (j : Int) = true := by
  simp [isSafe, cell, fullBoard, List.getD_eq_getElem?_getD, hi, hj]

theorem solveMazeUtil_below (h w : Nat) (fuel : Nat) (j : Int) (s : State) :
    solveMazeUtil (fullBoard (h + 1) (w + 1)) (fuel + 1) ((h : Int) + 1) j s = some (false, s) := by
  rw [solveMazeUtil_succ]
  have : outOfBounds (fullBoard (h + 1) (w + 1)) ((h : Int) + 1) j = true := by
    simp [outOfBounds, fullBoard]
  simp [this]

theorem containsPoint_addPoint_false {V : Type} (m : JsMap V) (p q : Point) (v : V)
    (hne : hash q ≠ hash p) (hm : containsPoint m q = false) :
    containsPoint (addPoint m p v) q = false := by
  cases hc : containsPoint (addPoint m p v) q with
  | false => rfl
  | true =>
    rcases (hasOwnProperty_addPoint m p v (hash q)).mp hc with h | h
    · exact absurd h hne
    · rw [containsPoint] at hm; rw [hm] at h; cases h

/-- An expansion, with the state in which the loop over the neighbours starts. -/
theorem solveMazeUtil_expand (b : Board) (fuel : Nat) (x y : Int) (s : State)
    (h1 : outOfBounds b x y = false) (h2 : isSafe b x y = true)
    (h3 : containsPoint s.pathSoFar ⟨x, y⟩ = false) (hg : (⟨x, y⟩ : Point) ≠ goal b) :
    ∃ s1, s1.memo = s.memo ∧ s1.sol = s.sol ++ [⟨x, y⟩] ∧
      s1.pathSoFar = addPoint s.pathSoFar ⟨x, y⟩ ⟨x, y⟩ ∧
      solveMazeUtil b (fuel + 1) x y s =
        visit (solveMazeUtil b fuel) ⟨x, y⟩
          [⟨x + 1, y⟩, ⟨x, y + 1⟩, ⟨x - 1, y⟩, ⟨x, y - 1⟩] s1 := by
  rcases solveMazeUtil_cases b fuel x y s with ⟨hc, -⟩ | ⟨-, -, -, hg2, -⟩ | ⟨-, -, -, -, he⟩
  · rcases hc with hc | hc | hc
    · rw [h1] at hc; cases hc
    · rw [h2] at hc; cases hc
    · rw [h3] at hc; cases hc
  · exact absurd hg2 hg
  · exact ⟨addPosition { s with pathSoFar := (addPoint s.pathSoFar ⟨x, y⟩ ⟨x, y⟩) } x y,
      rfl, rfl, rfl, he⟩

/-- A terminal accept. -/
theorem solveMazeUtil_accept (b : Board) (fuel : Nat) (x y : Int) (s : State)
    (h1 : outOfBounds b x y = false) (h2 : isSafe b x y = true)
    (h3 : containsPoint s.pathSoFar ⟨x, y⟩ = false) (hg : (⟨x, y⟩ : Point) = goal b) :
    solveMazeUtil b (fuel + 1) x y s = some (true, addPosition s x y) := by
  rcases solveMazeUtil_cases b fuel x y s with ⟨hc, -⟩ | ⟨-, -, -, -, he⟩ | ⟨-, -, -, hg2, -⟩
  · rcases hc with hc | hc | hc
    · rw [h1] at hc; cases hc
    · rw [h2] at hc; cases hc
    · rw [h3] at hc; cases hc
  · exact he
  · exact absurd hg hg2

theorem containsPoint_nil (q : Point) : containsPoint ([] : JsMap Bool) q = false := rfl

/-- Along the last row of the fully valid board the search moves right up to the
goal: the call below the board is rejected and the next call goes right. -/
theorem row_run (h w : Nat) :
    ∀ r j fuel s, j + r = w → r < fuel → s.memo = [] →
      (∀ k, j ≤ k → k ≤ w → containsPoint s.pathSoFar ⟨(h : Int), (k : Int)⟩ = false) →
      ∃ t, solveMazeUtil (fullBoard (h + 1) (w + 1)) fuel (h : Int) (j : Int) s = some (true, t) ∧
        t.sol = s.sol ++
          (List.range (r + 1)).map (fun (d : Nat) => (⟨(h : Int), ((j + d : Nat) : Int)⟩ : Point)) := by
  intro r
  induction r with
  | zero =>
    intro j fuel s hj hf hm hp
    obtain ⟨f, rfl⟩ : ∃ f, fuel = f + 1 := ⟨fuel - 1, by omega⟩
    have hjw : j = w := by omega
    subst hjw
    refine ⟨_, solveMazeUtil_accept _ f _ _ s
      (outOfBounds_fullBoard _ _ _ _ (Nat.lt_succ_self h) (Nat.lt_succ_self j))
      (isSafe_fullBoard _ _ _ _ (Nat.lt_succ_self h) (Nat.lt_succ_self j))
      (hp j (Nat.le_refl _) (Nat.le_refl _)) (goal_fullBoard h j).symm, ?_⟩
    simp [addPosition, List.range_succ]
  | succ r ih =>
    intro j fuel s hj hf hm hp
    obtain ⟨f, rfl⟩ : ∃ f, fuel = f + 2 := ⟨fuel - 2, by omega⟩
    have hjw : j < w := by omega
    have hg : (⟨(h : Int), (j : Int)⟩ : Point) ≠ goal (fullBoard (h + 1) (w + 1)) := by
      rw [goal_fullBoard]
      intro hh
      simp only [Point.mk.injEq, Nat.cast_inj, true_and] at hh
      omega
    obtain ⟨s1, hm1, hsol1, hps1, he⟩ := solveMazeUtil_expand _ (f + 1) _ _ s
      (outOfBounds_fullBoard (h + 1) (w + 1) h j (Nat.lt_succ_self h) (by omega))
      (isSafe_fullBoard (h + 1) (w + 1) h j (Nat.lt_succ_self h) (by omega))
      (hp j (Nat.le_refl _) (by omega)) hg
    have hmemo : ∀ q, containsPoint s1.memo q = false := by
      intro q; rw [hm1, hm]; rfl
    rw [he, visit_cons_false _ _ _ _ _ _ (hmemo _) (solveMazeUtil_below h w f _ _)]
    obtain ⟨t, ht, hsol⟩ := ih (j + 1) (f + 1) s1 (by omega) (by omega) (by rw [hm1, hm])
      (by
        intro k hk1 hk2
        rw [hps1]
        apply containsPoint_addPoint_false
        · intro hh
          have := hash_row_injective h k j hh
          omega
        · exact hp k (by omega) hk2)
    simp only [Nat.cast_add, Nat.cast_one] at ht
    rw [visit_cons_true _ _ _ _ _ t (hmemo _) ht]
    refine ⟨_, rfl, ?_⟩
    simp only [hsol, hsol1, List.append_assoc, List.singleton_append]
    rw [List.range_succ_eq_map (r + 1)]
    simp only [List.map_cons, List.map_map, Nat.add_zero]
    congr 2
    apply List.map_congr_left
    intro d _
    simp only [Function.comp, Nat.succ_eq_add_one]
    congr 2
    omega

/-- Down the first column of the fully valid board the search moves down to the
last row, and then along it. -/
theorem column_run (h w : Nat) :
    ∀ r i fuel s, i + r = h → r + w < fuel → s.memo = [] →
      (∀ k, i ≤ k → k ≤ h → containsPoint s.pathSoFar ⟨(k : Int), 0⟩ = false) →
      (∀ k, 1 ≤ k → k ≤ w → containsPoint s.pathSoFar ⟨(h : Int), (k : Int)⟩ = false) →
      ∃ t, solveMazeUtil (fullBoard (h + 1) (w + 1)) fuel (i : Int) 0 s = some (true, t) ∧
        t.sol = s.sol ++
          (List.range r).map (fun (d : Nat) => (⟨((i + d : Nat) : Int), 0⟩ : Point)) ++
          (List.range (w + 1)).map (fun (d : Nat) => (⟨(h : Int), (d : Int)⟩ : Point)) := by
  intro r
  induction r with
  | zero =>
    intro i fuel s hi hf hm hc hr
    have hih : i = h := by omega
    subst hih
    obtain ⟨t, ht, hsol⟩ := row_run i w w 0 fuel s (by omega) (by omega) hm
      (by
        intro k _ hk2
        rcases Nat.eq_zero_or_pos k with hk | hk
        · subst hk
          exact hc i (Nat.le_refl _) (Nat.le_refl _)
        · exact hr k hk hk2)
    refine ⟨t, ht, ?_⟩
    simp only [hsol, List.range_zero, List.map_nil, List.append_nil, Nat.zero_add]
  | succ r ih =>
    intro i fuel s hi hf hm hc hr
    obtain ⟨f, rfl⟩ : ∃ f, fuel = f + 1 := ⟨fuel - 1, by omega⟩
    have hih : i < h := by omega
    have hg : (⟨(i : Int), 0⟩ : Point) ≠ goal (fullBoard (h + 1) (w + 1)) := by
      rw [goal_fullBoard]
      intro hh
      simp only [Point.mk.injEq, Nat.cast_inj] at hh
      omega
    obtain ⟨s1, hm1, hsol1, hps1, he⟩ := solveMazeUtil_expand _ f _ _ s
      (outOfBounds_fullBoard (h + 1) (w + 1) i 0 (by omega) (by omega))
      (isSafe_fullBoard (h + 1) (w + 1) i 0 (by omega) (by omega))
      (hc i (Nat.le_refl _) (by omega)) hg
    have hmemo : ∀ q, containsPoint s1.memo q = false := by
      intro q; rw [hm1, hm]; rfl
    obtain ⟨t, ht, hsol⟩ := ih (i + 1) f s1 (by omega) (by omega) (by rw [hm1, hm])
      (by
        intro k hk1 hk2
        rw [hps1]
        apply containsPoint_addPoint_false
        · intro hh
          have := hash_column_zero i k 0 (by omega) hh.symm
          omega
        · exact hc k (by omega) hk2)
      (by
        intro k hk1 hk2
        rw [hps1]
        apply containsPoint_addPoint_false
        · intro hh
          have := hash_column_zero i h k (by omega) hh.symm
          omega
        · exact hr k hk1 hk2)
    simp only [Nat.cast_add, Nat.cast_one] at ht
    have he2 : solveMazeUtil (fullBoard (h + 1) (w + 1)) (f + 1) (i : Int) 0 s =
        visit (solveMazeUtil (fullBoard (h + 1) (w + 1)) f) ⟨(i : Int), 0⟩
          [⟨(i : Int) + 1, 0⟩, ⟨(i : Int), 0 + 1⟩, ⟨(i : Int) - 1, 0⟩, ⟨(i : Int), 0 - 1⟩] s1 := he
    rw [he2, visit_cons_true _ _ _ _ _ t (hmemo _) ht]
    refine ⟨_, rfl, ?_⟩
    simp only [hsol, hsol1, List.append_assoc, List.singleton_append]
    rw [List.range_succ_eq_map r]
    simp only [List.map_cons, List.map_map, Nat.add_zero, List.cons_append]
    congr 3
    apply List.map_congr_left
    intro d _
    simp only [Function.comp, Nat.succ_eq_add_one]
    congr 2
    omega

theorem downRight_eq (h w : Nat) :
    downRight (h + 1) (w + 1) =
      (List.range h).map (fun (d : Nat) => (⟨((0 + d : Nat) : Int), 0⟩ : Point)) ++
        (List.range (w + 1)).map (fun (d : Nat) => (⟨(h : Int), (d : Int)⟩ : Point)) := by
  unfold downRight
  rw [List.range_succ h, List.map_append, List.range_succ_eq_map w]
  simp only [List.map_cons, List.map_nil, List.map_map, Nat.add_sub_cancel, List.append_assoc,
    List.singleton_append, Nat.zero_add, Nat.cast_zero]
  rfl

theorem downRight_length (H W : Nat) (hW : 1 ≤ W) : (downRight H W).length = H + W - 1 := by
  simp only [downRight, List.length_append, List.length_map, List.length_range]
  omega

theorem solve_fullBoard_succ (h w : Nat) :
    ∃ s, solve (fullBoard (h + 1) (w + 1)) = some (true, s) ∧
      s.sol = downRight (h + 1) (w + 1) := by
  have hf : h + w < (h + 1) * (w + 1) + 1 := by nlinarith [Nat.zero_le (h * w)]
  obtain ⟨t, ht, hsol⟩ := column_run h w h 0 ((h + 1) * (w + 1) + 1) ⟨[], [], [], []⟩
    (by omega) hf rfl (fun _ _ _ => rfl) (fun _ _ _ => rfl)
  refine ⟨t, ht, ?_⟩
  rw [hsol, downRight_eq]
  rfl

/-! ## The claims -/

/-- C1 (completeness) fails on `board4x6`: `path4x6` is a path of valid cells from
`(0,0)` to the goal `(3,5)`, yet `solve` returns `false`, and leaves `(0,0)` in
the solution path. The call on `(2,2)` returns the memoised `false` of its right
neighbour `(2,3)` before it tries to go up. -/
theorem solve_incomplete_board4x6 :
    hasPath board4x6 ∧ ∃ s, solve board4x6 = some (false, s) ∧ s.sol = [⟨0, 0⟩] :=
  ⟨⟨path4x6, isPathFrom_path4x6⟩, run_of_map_eq _ _ _ solve_board4x6_eq⟩

/-- C2 (path without gaps) fails on `board4x4`: `solve` returns `true` and the
solution path it leaves is `(0,0),(1,0),(0,1),(0,2),(0,3),(1,3),(2,3),(3,3)`, in
which `(1,0)` is followed by `(0,1)`, not a 4-directional step. -/
theorem solve_gap_board4x4 :
    ∃ s, solve board4x4 = some (true, s) ∧
      s.sol = [⟨0, 0⟩, ⟨1, 0⟩, ⟨0, 1⟩, ⟨0, 2⟩, ⟨0, 3⟩, ⟨1, 3⟩, ⟨2, 3⟩, ⟨3, 3⟩] ∧
      ¬ s.sol.Chain' adjacent := by
  obtain ⟨s, hs, hl⟩ := run_of_map_eq _ _ _ solve_board4x4_eq
  refine ⟨s, hs, hl, ?_⟩
  rw [hl]
  intro h
  have h2 : adjacent ⟨1, 0⟩ ⟨0, 1⟩ := (List.chain'_cons.mp (List.chain'_cons.mp h).2).1
  revert h2
  decide

/-- C3 (endpoints): whenever `solve` returns `true`, the solution path is not
empty, its first coordinate is `(0,0)` and its last coordinate is the goal
`(HEIGHT - 1, WIDTH - 1)`. -/
theorem solve_endpoints (b : Board) (s : State) (h : solve b = some (true, s)) :
    s.sol ≠ [] ∧ s.sol.head? = some ⟨0, 0⟩ ∧
      s.sol.getLast? = some ⟨(b.HEIGHT : Int) - 1, (b.WIDTH : Int) - 1⟩ := by
  obtain ⟨hlast, ⟨d, hd⟩, -⟩ :=
    (solveMazeUtil_sound b _ 0 0 ⟨[], [], [], []⟩ true s NoTrue_nil h).2 rfl
  simp only [List.nil_append, List.singleton_append] at hd
  refine ⟨?_, ?_, hlast⟩
  · rw [← hd]; exact List.cons_ne_nil _ _
  · rw [← hd]; rfl

/-- The endpoints of the path that `solve` leaves on `board2x2`. -/
theorem solve_endpoints_witness :
    solve board2x2 = some (true, final2x2) ∧
      (final2x2.sol ≠ [] ∧ final2x2.sol.head? = some ⟨0, 0⟩ ∧
        final2x2.sol.getLast? =
          some ⟨(board2x2.HEIGHT : Int) - 1, (board2x2.WIDTH : Int) - 1⟩) :=
  ⟨solve_board2x2_eq, solve_endpoints board2x2 final2x2 solve_board2x2_eq⟩

/-- C4 (no repeated coordinate): on every board `solve` returns, and the solution
path it leaves, whatever the verdict, contains no coordinate twice. -/
theorem solve_nodup (b : Board) : ∃ v s, solve b = some (v, s) ∧ s.sol.Nodup := by
  obtain ⟨v, s, h⟩ := solveMaze_terminates b [] []
  exact ⟨v, s, h, (solveMazeUtil_nodup b _ 0 0 ⟨[], [], [], []⟩ v s Inv_start rfl h).1⟩

/-- C5 (soundness of the verdict): on every board on which no sequence of
4-directional steps over valid in-bounds cells leads from `(0,0)` to the goal,
`solve` returns `false`. -/
theorem solve_false_of_no_path (b : Board) (h : ¬ hasPath b) :
    ∃ s, solve b = some (false, s) := by
  obtain ⟨v, s, hs⟩ := solveMaze_terminates b [] []
  cases v with
  | false => exact ⟨s, hs⟩
  | true =>
    obtain ⟨-, -, l, hl⟩ :=
      (solveMazeUtil_sound b _ 0 0 ⟨[], [], [], []⟩ true s NoTrue_nil hs).2 rfl
    exact absurd ⟨l, hl⟩ h

/-- The verdict on `board1x1Blocked`, which has no path. -/
theorem solve_false_of_no_path_witness :
    ¬ hasPath board1x1Blocked ∧ ∃ s, solve board1x1Blocked = some (false, s) :=
  ⟨not_hasPath_of_goal_blocked board1x1Blocked (by decide),
    solve_false_of_no_path board1x1Blocked
      (not_hasPath_of_goal_blocked board1x1Blocked (by decide))⟩

/-- C6 (empty path on failure) fails on `board2x3`: no path to the goal exists
(the goal `(1,2)` is invalid), `solve` returns `false`, and the solution path it
leaves is `(0,0)`, not the empty path. -/
theorem solve_leftover_board2x3 :
    ¬ hasPath board2x3 ∧ ∃ s, solve board2x3 = some (false, s) ∧ s.sol = [⟨0, 0⟩] :=
  ⟨not_hasPath_of_goal_blocked board2x3 (by decide), run_of_map_eq _ _ _ solve_board2x3_eq⟩

/-- C7 (keys do not collide) fails: the distinct coordinates `(1,23)` and `(12,3)`
both get the key `"123"`, so that a map holding `(1,23)` is reported to contain
`(12,3)`. -/
theorem hash_collision :
    (⟨1, 23⟩ : Point) ≠ ⟨12, 3⟩ ∧ hash ⟨1, 23⟩ = "123" ∧ hash ⟨12, 3⟩ = "123" ∧
      containsPoint (addPoint ([] : JsMap Bool) ⟨1, 23⟩ false) ⟨12, 3⟩ = true :=
  ⟨by decide, by decide, by decide, by decide⟩

/-- C8 (3x3 scenario): on the board of three rows and three columns whose cells
are all valid except `(1,1)`, `solve` returns `true` and the solution path has
length at least 5, starts at `(0,0)`, ends at `(2,2)`, moves by 4-directional
steps and does not contain `(1,1)`. -/
theorem solve_board3x3 :
    ∃ s, solve board3x3 = some (true, s) ∧ 5 ≤ s.sol.length ∧
      s.sol.head? = some ⟨0, 0⟩ ∧ s.sol.getLast? = some ⟨2, 2⟩ ∧
      s.sol.Chain' adjacent ∧ (⟨1, 1⟩ : Point) ∉ s.sol := by
  obtain ⟨s, hs, hl⟩ := run_of_map_eq _ _ _ solve_board3x3_eq
  refine ⟨s, hs, ?_⟩
  rw [hl]
  refine ⟨by decide, by decide, by decide, ?_, by decide⟩
  simp only [List.chain'_cons, List.chain'_singleton, and_true]
  decide

/-- C9 (1x1 boundary): on the board of one valid cell `solve` returns `true` and
the solution path is exactly the single coordinate `(0,0)`. -/
theorem solve_board1x1 : ∃ s, solve board1x1 = some (true, s) ∧ s.sol = [⟨0, 0⟩] :=
  ⟨_, solve_board1x1_eq, rfl⟩

/-- C10 as stated fails on `board1x1`: a second run of `solveMaze` does not leave
the solution path that the first run left (it leaves `(0,0),(0,0)` after
`(0,0)`). -/
theorem solveMaze_twice_board1x1 :
    ¬ (∀ v1 s1 v2 s2, solve board1x1 = some (v1, s1) →
        solveMaze board1x1 s1.sol s1.stack = some (v2, s2) →
        v2 = v1 ∧ s2.sol = s1.sol) := by
  intro h
  have h2 := (h _ _ _ _ solve_board1x1_eq solveMaze_again_board1x1_eq).2
  revert h2
  decide

/-- C10 amended: on every board both runs of `solveMaze` return, with the same
verdict; the second run, which starts on the solution path left by the first,
appends the same coordinates again, so that the path it leaves is the path of the
first run followed by itself. -/
theorem solveMaze_twice (b : Board) :
    ∃ v s1 s2, solve b = some (v, s1) ∧ solveMaze b s1.sol s1.stack = some (v, s2) ∧
      s2.sol = s1.sol ++ s1.sol := by
  obtain ⟨v, s1, h1⟩ := solveMaze_terminates b [] []
  refine ⟨v, s1, shift s1.sol s1.stack s1, h1, ?_, rfl⟩
  have h := solveMazeUtil_shift b s1.sol s1.stack (b.HEIGHT * b.WIDTH + 1) 0 0
    ⟨[], [], [], []⟩
  simp only [shift, List.append_nil] at h
  unfold solveMaze at h1 ⊢
  rw [h1] at h
  exact h

/-- C14 (terminal reject): if `(x,y)` is out of the bounds of the grid, or is not
a valid cell, or its key is already held by the path-so-far map, then
`solveMazeUtil(x,y)` returns `false` and the path-so-far map, the memo, the
solution path and the stack are what they were before the call. -/
theorem solveMazeUtil_reject (b : Board) (fuel : Nat) (x y : Int) (s : State)
    (h : outOfBounds b x y = true ∨ isSafe b x y = false ∨
      containsPoint s.pathSoFar ⟨x, y⟩ = true) :
    solveMazeUtil b (fuel + 1) x y s = some (false, s) := by
  rw [solveMazeUtil_succ]
  rcases h with h | h | h <;> simp [h]

/-- The call on the invalid cell of `board1x1Blocked` is rejected. -/
theorem solveMazeUtil_reject_witness :
    isSafe board1x1Blocked 0 0 = false ∧
      solveMazeUtil board1x1Blocked 1 0 0 ⟨[], [], [], []⟩ = some (false, ⟨[], [], [], []⟩) :=
  ⟨by decide, solveMazeUtil_reject board1x1Blocked 0 0 0 ⟨[], [], [], []⟩
    (Or.inr (Or.inl (by decide)))⟩

/-- C19 (only valid cells are stepped on): the empty state of a search satisfies
`Valid`; every call of `solveMazeUtil` made in a state that satisfies `Valid`
leaves a state that satisfies it; and `solve` returns in such a state: every
coordinate of the solution path, and every coordinate held by the path-so-far
map, lies inside the grid (`0 ≤ x < HEIGHT`, `0 ≤ y < WIDTH`) on a cell marked
valid. -/
theorem solve_valid_cells (b : Board) :
    Valid b ⟨[], [], [], []⟩ ∧
      (∀ fuel x y s v t, Valid b s → solveMazeUtil b fuel x y s = some (v, t) → Valid b t) ∧
      ∃ v s, solve b = some (v, s) ∧ Valid b s := by
  refine ⟨Valid_start b, solveMazeUtil_valid b, ?_⟩
  obtain ⟨v, s, h⟩ := solveMaze_terminates b [] []
  exact ⟨v, s, h, solveMazeUtil_valid b _ 0 0 _ v s (Valid_start b) h⟩

/-- C15 (exhaustion undoes the tentative step) fails on `board3x3Dead`: the call
of `solve` on `(0,0)` ends in the exhaustion branch, which records `false` for
`(0,0)` in the memo and removes `(0,0)` from the path-so-far map, but the
coordinate popped is `(0,1)`, left in the solution path by the call on `(0,1)`
that returned on a memo hit: the solution path after the call is `(0,0)`, not
the empty path it was before. -/
theorem exhaustion_pops_other_board3x3Dead :
    solve board3x3Dead = some (false, final3x3Dead) ∧
      getPoint final3x3Dead.memo ⟨0, 0⟩ = some false ∧
      containsPoint final3x3Dead.pathSoFar ⟨0, 0⟩ = false ∧
      final3x3Dead.sol = [⟨0, 0⟩] ∧ final3x3Dead.sol ≠ [] :=
  ⟨solve_board3x3Dead_eq, by decide, by decide, rfl, by decide⟩

/-- C16 (the memo only grows): on every board `solve` returns with a memo whose
keys are distinct keys of cells of the grid, and so of at most `WIDTH * HEIGHT`
entries; and every call of `solveMazeUtil` made in a search started by
`solveMaze` starts with a memo of at most `WIDTH * HEIGHT` entries and returns,
every entry of the memo before the call is an entry after it, every verdict read
by `getPoint` before the call is read after it, and the memo after the call
holds at most `WIDTH * HEIGHT` entries. -/
theorem memo_only_grows (b : Board) :
    (∃ v t, solve b = some (v, t) ∧ MemoOk b t.memo ∧
      t.memo.length ≤ b.WIDTH * b.HEIGHT) ∧
    ∀ fuel x y s, InSearch b fuel x y s →
      s.memo.length ≤ b.WIDTH * b.HEIGHT ∧
      ∃ v t, solveMazeUtil b fuel x y s = some (v, t) ∧
        (∀ e ∈ s.memo, e ∈ t.memo) ∧
        (∀ p verdict, getPoint s.memo p = some verdict → getPoint t.memo p = some verdict) ∧
        t.memo.length ≤ b.WIDTH * b.HEIGHT := by
  constructor
  · obtain ⟨v, t, h⟩ := solveMaze_terminates b [] []
    obtain ⟨-, h2, -⟩ := solveMazeUtil_memo b _ 0 0 ⟨[], [], [], []⟩ v t (MemoOk_nil b) rfl h
    exact ⟨v, t, h, h2, MemoOk_length b _ h2⟩
  · intro fuel x y s hs
    obtain ⟨hok, hkey, hf⟩ := InSearch_inv b fuel x y s hs
    obtain ⟨v, t, h, -⟩ := solveMazeUtil_terminates b fuel x y s hf
    obtain ⟨h1, h2, -⟩ := solveMazeUtil_memo b fuel x y s v t hok hkey h
    refine ⟨MemoOk_length b _ hok, v, t, h, h1, ?_, MemoOk_length b _ h2⟩
    intro p verdict hp
    rw [getPoint_eq_some_iff _ _ _ hok.1] at hp
    rw [getPoint_eq_some_iff _ _ _ h2.1]
    exact h1 _ hp

/-- The memo across the call on `(0,1)` that the search on `board2x2Corner` makes
in the state `mid2x2`, whose memo holds the verdict of `(1,0)`. -/
theorem memo_only_grows_witness :
    InSearch board2x2Corner 4 0 1 mid2x2 ∧
      (mid2x2.memo.length ≤ board2x2Corner.WIDTH * board2x2Corner.HEIGHT ∧
        ∃ v t, solveMazeUtil board2x2Corner 4 0 1 mid2x2 = some (v, t) ∧
          (∀ e ∈ mid2x2.memo, e ∈ t.memo) ∧
          (∀ p verdict, getPoint mid2x2.memo p = some verdict →
            getPoint t.memo p = some verdict) ∧
          t.memo.length ≤ board2x2Corner.WIDTH * board2x2Corner.HEIGHT) :=
  ⟨InSearch_mid2x2, (memo_only_grows board2x2Corner).2 4 0 1 mid2x2 InSearch_mid2x2⟩

/-- C17 (termination): on every board `solve` returns a verdict, and every larger
bound on the depth of the recursion gives the same result; more generally a call
of `solveMazeUtil` in any state returns as soon as the depth allowed exceeds the
number of keys of cells of the grid that the path-so-far map does not hold, a
number that is at most `HEIGHT * WIDTH` and that every expansion lowers. -/
theorem solve_terminates (b : Board) :
    (∃ v t, solve b = some (v, t) ∧
      ∀ n, b.HEIGHT * b.WIDTH + 1 ≤ n →
        solveMazeUtil b n 0 0 ⟨[], [], [], []⟩ = some (v, t)) ∧
    (∀ fuel x y s, free b s.pathSoFar < fuel →
      ∃ v t, solveMazeUtil b fuel x y s = some (v, t)) ∧
    (∀ m, free b m ≤ b.HEIGHT * b.WIDTH) ∧
    (∀ m x y p, outOfBounds b x y = false → containsPoint m ⟨x, y⟩ = false →
      free b (addPoint m ⟨x, y⟩ p) < free b m) := by
  refine ⟨?_, ?_, free_le b, ?_⟩
  · obtain ⟨v, t, h⟩ := solveMaze_terminates b [] []
    exact ⟨v, t, h, fun n hn => solveMazeUtil_fuel_mono b _ n hn 0 0 _ _ h⟩
  · intro fuel x y s hf
    obtain ⟨v, t, h, -⟩ := solveMazeUtil_terminates b fuel x y s hf
    exact ⟨v, t, h⟩
  · intro m x y p hin hm
    exact free_addPoint_lt b m x y p hin hm

/-- C11 (busy retry of `check_cell`): when the requests of `isValid(x,y)` are
answered by `n` times the status 503 and then by a success (a status from 200
to 299), `isValid` sends exactly `n + 1` requests and returns `{ok: true}`,
without an error; whatever the server would answer afterwards is not asked for. -/
theorem isValid_busy_retry (n status : Nat) (rest : List (Answer Unit))
    (hs : 200 ≤ status ∧ status < 300) :
    isValid (List.replicate n (Answer.http 503 ()) ++ Answer.http status () :: rest) =
      some (Except.ok (CheckResult.ok true), n + 1) := by
  induction n with
  | zero => simpa using isValid_success status rest hs
  | succ n ih =>
    rw [List.replicate_succ, List.cons_append, isValid_busy, ih]
    rfl

/-- The scenario of C11: 503, 503 and then 200 give three requests and
`{ok: true}`. -/
theorem isValid_busy_retry_witness :
    (200 ≤ 200 ∧ 200 < 300) ∧
      isValid [Answer.http 503 (), Answer.http 503 (), Answer.http 200 ()] =
        some (Except.ok (CheckResult.ok true), 3) :=
  ⟨by decide, isValid_busy_retry 2 200 [] (by decide)⟩

/-- C12 (forbidden is never retried by `fetch_maze`) fails: `axios.post` rejects
on the status 403, so the test `403 === res.status` of `getMaze` is never
reached and `retry` makes another attempt. When the first request is answered
403 and the second 200, `getMaze` sends two requests and returns `{ok: true}`;
when six requests in a row are answered 403, it sends all six and returns
`{ok: false}` with the error that `async-retry` picks among the six errors of
`axios`, none of which is `Error('Unauthorized')`. -/
theorem getMaze_forbidden_retried (mainError : List Err → Err) (d0 d : MazeData) :
    getMaze mainError [Answer.http 403 d0, Answer.http 200 d] =
        some (⟨true, some d, none⟩, 2) ∧
      getMaze mainError (List.replicate 6 (Answer.http 403 d0)) =
        some (⟨false, none, some (mainError (List.replicate 6 (Err.axios (some 403))))⟩, 6) := by
  constructor
  · simp [getMaze, getMazeAttempts, axiosRequest, validateStatus]
  · simp [getMaze, getMazeAttempts, axiosRequest, validateStatus, List.replicate]

/-- C13 (board initialisation): for every descriptor `{width, height, id}` and
every assignment `valid` of answers to cells (success where it holds, forbidden
elsewhere), `initMazeProps` followed by `getValidBoardMoves` resolves, without an
error, with a board of `height` rows of `width` columns in which the cell
`(x,y)` holds `1` when the request for it was answered with a success and `0`
when it was answered with the status 403; `isSafe` accepts exactly the former. -/
theorem getValidBoardMoves_board (data : MazeData) (valid : Nat → Nat → Bool) :
    ∃ b, getValidBoardMoves (initMazeProps emptyMaze data) (cellOracle valid) =
        some (Except.ok b) ∧
      b.HEIGHT = data.height ∧ b.WIDTH = data.width ∧
      b.data.length = data.height ∧ (∀ row ∈ b.data, row.length = data.width) ∧
      ∀ x y : Nat, x < data.height → y < data.width →
        cell b x y = some (if valid x y then 1 else 0) ∧ isSafe b x y = valid x y := by
  refine ⟨_, getValidBoardMoves_eq data valid, rfl, rfl, gridOf_length _ _ _,
    gridOf_row_length _ _ _, ?_⟩
  intro x y hx hy
  have hc := cell_gridOf valid data.width data.height x y hx hy
  refine ⟨hc, ?_⟩
  unfold isSafe
  simp only [hc]
  cases valid x y <;> simp [hx, hy]

/-- C18 (the priority order decides the path): for every `H ≥ 1` and `W ≥ 1`, on
the fully valid board of `H` rows and `W` columns `solve` returns `true` and the
solution path is exactly `(0,0), (1,0), ..., (H-1,0), (H-1,1), ..., (H-1,W-1)`,
straight down the first column and then right along the last row, of length
`H + W - 1`. -/
theorem solve_fullBoard (H W : Nat) (hH : 1 ≤ H) (hW : 1 ≤ W) :
    ∃ s, solve (fullBoard H W) = some (true, s) ∧ s.sol = downRight H W ∧
      s.sol.length = H + W - 1 := by
  obtain ⟨h, rfl⟩ : ∃ h, H = h + 1 := ⟨H - 1, by omega⟩
  obtain ⟨w, rfl⟩ : ∃ w, W = w + 1 := ⟨W - 1, by omega⟩
  obtain ⟨s, hs, hsol⟩ := solve_fullBoard_succ h w
  exact ⟨s, hs, hsol, by rw [hsol]; exact downRight_length _ _ hW⟩

/-- The path on the fully valid board of two rows and three columns. -/
theorem solve_fullBoard_witness :
    (1 ≤ 2 ∧ 1 ≤ 3) ∧
      ∃ s, solve (fullBoard 2 3) = some (true, s) ∧ s.sol = downRight 2 3 ∧
        s.sol.length = 2 + 3 - 1 :=
  ⟨by decide, solve_fullBoard 2 3 (by decide) (by decide)⟩

end Coda
